import Mathlib

/-! # DTMFToText: a verification development for `apps/app_dtmftotext.c`

Shallow embedding of `char_to_text` and of `get_input_text` (the decoder of
keypad presses into text), followed by theorems about them.

Representation choices, all local to this file:

* `digval` (a C string) is the list of its characters before the terminating
  NUL; the read pointer `s` is the list of characters not yet consumed.
* `entered_text` is the list of the bytes `entered_text[0 .. t)`; the write
  pointer `t` is the length of that list.  The bytes at and after `t` are never
  read by the source before it has written them again, so they are not kept.
* `talk_back` is kept as the whole buffer (a function from offsets to bytes)
  with the offsets `u` and `ul`, because the source moves `u` back and forth
  (`u = ul`, `u = talk_back`) over bytes written earlier.
* The three buffers are unbounded: the source's fixed sizes (128, 500 and 1000
  bytes) are not modelled.
* `int` values are integers: `hits` is a natural number (it starts at 1 and only
  grows), `max_chars`, `max_time` and `res` are in `Int`, and the product
  `8000*max_time` is reduced to the range of a 32-bit `int` by `int_wrap`.
* The channel is the list of frames it delivers; setting and restoring the read
  format, logging and `pbx_builtin_setvar_helper` are outside the embedding.
-/

namespace DtmfToText

/-- The anonymous `enum` of entry modes. -/
inductive Mode where
  | TEXT_ENTRY_MODE_LOWER_CASE
  | TEXT_ENTRY_MODE_UPPER_CASE
  | TEXT_ENTRY_MODE_NUMERIC
  | TEXT_ENTRY_MODE_SYMBOL
  deriving DecidableEq, Repr

open Mode

/-- The function `char_to_text`: words for punctuation, `none` for a NULL result. -/
def char_to_text (c : Char) : Option (List Char) :=
  if c = ' ' then some ['s', 'p', 'a', 'c', 'e']
  else if c = '.' then some ['p', 'e', 'r', 'i', 'o', 'd']
  else if c = ',' then some ['c', 'o', 'm', 'm', 'a']
  else if c = '!' then
    some ['e', 'x', 'c', 'l', 'a', 'm', 'a', 't', 'i', 'o', 'n', ' ', 'm', 'a', 'r', 'k']
  else if c = '?' then
    some ['q', 'u', 'e', 's', 't', 'i', 'o', 'n', ' ', 'm', 'a', 'r', 'k']
  else if c = '@' then some ['\x22', 'a', 't', '\x22', ' ', 's', 'i', 'g', 'n']
  else none

/-- The table `uclc_presses`, indexed by `x - '0'`. -/
def uclc_presses : Nat → List Char
  | 0 => [' ', ',', '.', '?', '0']
  | 1 => ['!', ':', ';', '#', '1']
  | 2 => ['A', 'B', 'C', '2']
  | 3 => ['D', 'E', 'F', '3']
  | 4 => ['G', 'H', 'I', '4']
  | 5 => ['J', 'K', 'L', '5']
  | 6 => ['M', 'N', 'O', '6']
  | 7 => ['P', 'Q', 'R', 'S', '7']
  | 8 => ['T', 'U', 'V', '8']
  | 9 => ['W', 'X', 'Y', 'Z', '9']
  | _ => []

/-- The table `symbol_presses`, indexed by `x - '0'`.  The bytes written in hexadecimal
are the left brace (7b), the right brace (7d), the apostrophe (27), the grave accent (60),
the double quote (22) and the backslash (5c). -/
def symbol_presses : Nat → List Char
  | 0 => ['=', '0']
  | 1 => ['<', '(', '[', '\x7b', '1']
  | 2 => ['@', '$', '&', '%', '2']
  | 3 => ['>', ')', ']', '\x7d', '3']
  | 4 => ['+', '-', '*', '/', '4']
  | 5 => ['\x27', '\x60', '5']
  | 6 => ['\x22', '6']
  | 7 => ['^', '7']
  | 8 => ['\x5c', '|', '8']
  | 9 => ['_', '~', '9']
  | _ => []

/-- The C library `isdigit` on a `char` holding an ASCII code. -/
def isdigit (x : Char) : Bool := decide ('0' ≤ x) && decide (x ≤ '9')

/-- The C library `tolower` in the C locale. -/
def tolower (c : Char) : Char := c.toLower

/-- The expression `x - '0'` for a digit `x`. -/
def digit_index (x : Char) : Nat := x.toNat - '0'.toNat

/-- The character `*q` after `q += ((hits - 1)%strlen(q))` for the table row `q`
(`hits` is at least 1 wherever the source evaluates this). -/
def press (q : List Char) (hits : Nat) : Char :=
  q.getD ((hits - 1) % q.length) '\x00'

/-- The character stored at `*t` for a run of `hits` presses of the digit `x`
in the lower case, upper case and symbol modes (in numeric mode, `x` itself). -/
def resolve (mode : Mode) (x : Char) (hits : Nat) : Char :=
  match mode with
  | TEXT_ENTRY_MODE_LOWER_CASE => tolower (press (uclc_presses (digit_index x)) hits)
  | TEXT_ENTRY_MODE_UPPER_CASE => press (uclc_presses (digit_index x)) hits
  | TEXT_ENTRY_MODE_NUMERIC => x
  | TEXT_ENTRY_MODE_SYMBOL => press (symbol_presses (digit_index x)) hits

/-- The assignment `b[i] = c` on a buffer. -/
def poke (b : Nat → Char) (i : Nat) (c : Char) : Nat → Char :=
  fun j => if j = i then c else b j

/-- Consecutive stores `b[i] = c0; b[i+1] = c1; ...` of the characters of a list. -/
def store (b : Nat → Char) : Nat → List Char → (Nat → Char)
  | _, [] => b
  | i, c :: cs => store (poke b i c) (i + 1) cs

/-- The bytes `b[0 .. n)` of a buffer. -/
def peek (b : Nat → Char) (n : Nat) : List Char := (List.range n).map b

/-- The variables of `get_input_text` that the decoding loop reads and writes. -/
structure State where
  /-- The variable `mode`. -/
  mode : Mode
  /-- The bytes `entered_text[0 .. t)`. -/
  entered_text : List Char
  /-- The buffer `talk_back`. -/
  talk_back : Nat → Char
  /-- The offset `u - talk_back`. -/
  u : Nat
  /-- The offset `ul - talk_back`. -/
  ul : Nat
  /-- The flag `done`. -/
  done : Bool

/-- The text to speak back as written so far: the bytes `talk_back[0 .. u)`, from the
start of the buffer to the write pointer `u`. -/
def State.transcript (st : State) : List Char := peek st.talk_back st.u

/-- The statement `u += sprintf(u, ...)` where the formatted output is `out`:
the output and its terminating NUL are stored at `u`, and `u` moves past the output. -/
def sprintf (st : State) (out : List Char) : State :=
  { st with talk_back := store st.talk_back st.u (out ++ ['\x00']), u := st.u + out.length }

/-- The output of the format `"%s, "` for `r`, or of `"%c, "` for `c` when
`char_to_text` returned NULL. -/
def spoken (c : Char) : List Char :=
  match char_to_text c with
  | some r => r ++ [',', ' ']
  | none => [c, ',', ' ']

/-- A loop `while (p > entered_text  &&  cond(*p)) p--;` over the bytes `e`,
started at offset `p`; the result is the final offset. -/
def back_while (cond : Char → Bool) (e : List Char) : Nat → Nat
  | 0 => 0
  | p + 1 => if cond (e.getD (p + 1) '\x00') then back_while cond e p else p + 1

/-- The inner loop `while (*s == x) { s++; hits++; }`. -/
def count_hits (x : Char) : List Char → Nat → Nat × List Char
  | [], hits => (hits, [])
  | c :: s, hits => if c = x then count_hits x s (hits + 1) else (hits, c :: s)

/-- The text `"delete "`. -/
def delete_text : List Char := ['d', 'e', 'l', 'e', 't', 'e', ' ']

/-- The text `"delete whole word, "`. -/
def delete_word_text : List Char :=
  ['d', 'e', 'l', 'e', 't', 'e', ' ', 'w', 'h', 'o', 'l', 'e', ' ', 'w', 'o', 'r', 'd', ',', ' ']

/-- The text `"space, "`. -/
def space_text : List Char := ['s', 'p', 'a', 'c', 'e', ',', ' ']

/-- The branch `case '2'` of the selector switch (backspace), after `s++`. -/
def backspace (st : State) : State :=
  match st.entered_text.getLast? with
  | none => st
  | some c => sprintf (sprintf { st with entered_text := st.entered_text.dropLast } delete_text)
      (spoken c)

/-- The branch `case '9'` of the selector switch (backspace over word), after `s++`. -/
def backspace_word (st : State) : State :=
  if 0 < st.entered_text.length then
    let e := st.entered_text
    let st1 := sprintf st delete_word_text
    let t1 := e.length - 1
    let t2 := back_while (fun c => c == ' ') e t1
    let t3 := back_while (fun c => c != ' ') e t2
    let t4 := if e.getD t3 '\x00' = ' ' then t3 + 1 else t3
    { st1 with entered_text := e.take t4 }
  else st

/-- The branch `case '#'` of the selector switch (read back), after `s++`. -/
def read_back (st : State) : State :=
  sprintf { st with u := 0 } st.entered_text

/-- The branch `case 2` of `switch (hits)` for a run of stars: the selector switch
on `*s`.  The result is the new state and the new `s`. -/
def selector (st : State) (s : List Char) : State × List Char :=
  match s with
  | [] => (st, [])
  | c :: rest =>
    if c = '2' then (backspace st, rest)
    else if c = '5' then ({ st with mode := TEXT_ENTRY_MODE_LOWER_CASE }, rest)
    else if c = '6' then ({ st with mode := TEXT_ENTRY_MODE_NUMERIC }, rest)
    else if c = '7' then ({ st with mode := TEXT_ENTRY_MODE_SYMBOL }, rest)
    else if c = '8' then ({ st with mode := TEXT_ENTRY_MODE_UPPER_CASE }, rest)
    else if c = '9' then (backspace_word st, rest)
    else if c = '#' then (read_back st, rest)
    else (st, c :: rest)

/-- The branches `TEXT_ENTRY_MODE_LOWER_CASE` and `TEXT_ENTRY_MODE_UPPER_CASE` of
`switch (mode)`, up to the `break`: `c` is the character stored at `*t`. -/
def text_entry (st : State) (c : Char) : State :=
  let e := st.entered_text ++ [c]
  let t := st.entered_text.length
  if c = ' ' then
    if 0 < t ∧ e.getD (t - 1) '\x00' ≠ ' ' then
      let v1 := back_while (fun a => a == ' ') e t
      let v2 := back_while (fun a => a != ' ') e v1
      let word := e.drop v2
      { st with talk_back := store st.talk_back st.ul word,
                u := st.ul + word.length,
                ul := st.ul + word.length }
    else sprintf st space_text
  else sprintf st (spoken c)

/-- The loop `for (i = 1;  i < hits;  i++) { *t++ = x; u += sprintf(u, "%c, ", x); }`
of the numeric branch, with `n` iterations left. -/
def numeric_loop (x : Char) : Nat → State → State
  | 0, st => st
  | n + 1, st =>
    numeric_loop x n (sprintf { st with entered_text := st.entered_text ++ [x] } [x, ',', ' '])

/-- The branch `else if (isdigit(x))` of the loop body. -/
def digit_run (max_chars : Int) (st : State) (x : Char) (hits : Nat) : State :=
  let st1 : State :=
    match st.mode with
    | TEXT_ENTRY_MODE_LOWER_CASE =>
      let c := resolve TEXT_ENTRY_MODE_LOWER_CASE x hits
      { text_entry st c with entered_text := st.entered_text ++ [c] }
    | TEXT_ENTRY_MODE_UPPER_CASE =>
      let c := resolve TEXT_ENTRY_MODE_UPPER_CASE x hits
      { text_entry st c with entered_text := st.entered_text ++ [c] }
    | TEXT_ENTRY_MODE_NUMERIC =>
      let st0 := numeric_loop x (hits - 1) st
      { sprintf st0 [x, ',', ' '] with entered_text := st0.entered_text ++ [x] }
    | TEXT_ENTRY_MODE_SYMBOL =>
      let c := resolve TEXT_ENTRY_MODE_SYMBOL x hits
      { sprintf st [c, ',', ' '] with entered_text := st.entered_text ++ [c] }
  if (st1.entered_text.length : Int) ≥ max_chars then { st1 with done := true } else st1

/-- One pass through the body of `while (*s  &&  !done)`, entered with `*s = x`
and `s1` the characters after it.  The result is the new state and the new `s`. -/
def step (max_chars : Int) (st : State) (x : Char) (s1 : List Char) : State × List Char :=
  let r := count_hits x s1 1
  let hits := r.1
  let s := r.2
  if x = '*' then
    if hits = 2 then selector st s else (st, s)
  else if x = '#' then
    ({ st with talk_back := poke st.talk_back st.u '\x00', done := true }, s)
  else if isdigit x then (digit_run max_chars st x hits, s)
  else (st, s)

/-- The loop `while (*s  &&  !done)`, with a bound on the number of passes;
`none` when the bound is reached before the loop ends. -/
def scan (max_chars : Int) : Nat → State → List Char → Option State
  | _, st, [] => some st
  | 0, _, _ :: _ => none
  | fuel + 1, st, x :: s1 =>
    if st.done then some st
    else scan max_chars fuel (step max_chars st x s1).1 (step max_chars st x s1).2

/-- The loop `while (*s  &&  !done)` run on the characters `s`: every pass consumes
at least one character, so `s.length` passes are enough. -/
def decode (max_chars : Int) (st : State) (s : List Char) : Option State :=
  scan max_chars s.length st s

/-- The processing of one batch `digval`: `s = digval; ul = u = talk_back;`, the
decoding loop, and the final `*u = *t = 0`. -/
def process_batch (max_chars : Int) (st : State) (digval : List Char) : Option State :=
  (decode max_chars { st with u := 0, ul := 0 } digval).map
    fun st1 => { st1 with talk_back := poke st1.talk_back st1.u '\x00' }

/-- What one pass of the outer loop gets from the channel: `ast_read` returns a DTMF
frame carrying a character, a frame of another type, or NULL (hangup).  The end of a
list of frames stands for `ast_waitfor` returning a negative value. -/
inductive Frame where
  | dtmf (c : Char)
  | other
  | null
  deriving DecidableEq, Repr

/-- The result of `get_input_text`: the final variables of the decoder and `res`. -/
structure Outcome where
  /-- The decoder variables when the outer loop is left. -/
  st : State
  /-- The value returned. -/
  res : Int

/-- The outer loop `while (!done  &&  ast_waitfor(chan, -1) > -1)` over the frames the
channel delivers; `digval` holds the digits collected since the last batch.  A batch is
processed when a `#` arrives; the test `digval[0] == 0` before it cannot succeed then,
as `digval` ends with that `#`. -/
def session_loop (max_chars total_timer : Int) :
    List Frame → State → List Char → Int → Option Outcome
  | [], st, _, res => some ⟨st, res⟩
  | f :: fs, st, digval, res =>
    if st.done then some ⟨st, res⟩
    else
      match f with
      | Frame.null => some ⟨st, -1⟩
      | Frame.other => session_loop max_chars total_timer fs st digval res
      | Frame.dtmf c =>
        if c ≠ '#' then session_loop max_chars total_timer fs st (digval ++ [c]) res
        else
          match process_batch max_chars st (digval ++ [c]) with
          | none => none
          | some st1 =>
            if st1.done ∨ total_timer ≤ 0 then some ⟨st1, 0⟩
            else session_loop max_chars total_timer fs st1 [] res

/-- The decoder variables as `get_input_text` initialises them; `mem` is the content
of the uninitialised buffer `talk_back`.  The pointers `u` and `ul` are first assigned
at the start of a batch, to `talk_back`: the offset 0 stands for that here. -/
def fresh (mem : Nat → Char) : State :=
  { mode := TEXT_ENTRY_MODE_LOWER_CASE, entered_text := [], talk_back := mem,
    u := 0, ul := 0, done := false }

/-- The value a 32-bit `int` holds for the arithmetic result `z`: `z` reduced modulo
`2^32` into the range from `-2^31` to `2^31 - 1` (two's complement). -/
def int_wrap (z : Int) : Int := (z + 2147483648) % 4294967296 - 2147483648

/-- The function `get_input_text` on a channel whose read format is already signed
linear (both format branches are skipped): `frames` is what the channel delivers.  The
budget is `total_timer = 8000*max_time`, an `int` product. -/
def get_input_text (mem : Nat → Char) (frames : List Frame) (initial_digits : List Char)
    (max_chars max_time : Int) : Option Outcome :=
  session_loop max_chars (int_wrap (8000 * max_time)) frames (fresh mem) initial_digits (-1)

/-- A `talk_back` buffer holding NUL bytes only, for runs on concrete inputs. -/
def blank : Nat → Char := fun _ => '\x00'

/-- The frames a channel delivers when the caller presses the keys `keys`. -/
def dtmf_frames (keys : List Char) : List Frame := keys.map Frame.dtmf

/-- The table row `q` that the branch of `mode` selects for the digit `x`
(`uclc_presses[x - '0']` or `symbol_presses[x - '0']`; the numeric branch uses none). -/
def row (mode : Mode) (x : Char) : List Char :=
  match mode with
  | TEXT_ENTRY_MODE_LOWER_CASE => uclc_presses (digit_index x)
  | TEXT_ENTRY_MODE_UPPER_CASE => uclc_presses (digit_index x)
  | TEXT_ENTRY_MODE_NUMERIC => []
  | TEXT_ENTRY_MODE_SYMBOL => symbol_presses (digit_index x)

/-- The rows of the table of `descrip` that starts "In alpha mode, characters may be
entered as follows": the digit, the number of presses, and the character listed. -/
def descrip_alpha : List (Char × Nat × Char) :=
  [('0', 1, ','), ('0', 2, '.'), ('0', 3, '?'), ('0', 4, '0'),
   ('1', 1, '!'), ('1', 2, ':'), ('1', 3, ';'), ('1', 4, '#'), ('1', 5, '1'),
   ('2', 1, 'A'), ('2', 2, 'B'), ('2', 3, 'C'), ('2', 4, '2'),
   ('3', 1, 'D'), ('3', 2, 'E'), ('3', 3, 'F'), ('3', 4, '3'),
   ('4', 1, 'G'), ('4', 2, 'H'), ('4', 3, 'I'), ('4', 4, '4'),
   ('5', 1, 'J'), ('5', 2, 'K'), ('5', 3, 'L'), ('5', 4, '5'),
   ('6', 1, 'M'), ('6', 2, 'N'), ('6', 3, 'O'), ('6', 4, '6'),
   ('7', 1, 'P'), ('7', 2, 'Q'), ('7', 3, 'R'), ('7', 4, 'S'), ('7', 5, '7'),
   ('8', 1, 'T'), ('8', 2, 'U'), ('8', 3, 'V'), ('8', 4, '8'),
   ('9', 1, 'W'), ('9', 2, 'X'), ('9', 3, 'Y'), ('9', 4, 'Z'), ('9', 5, '9')]

/-- Word-backspace in the words of the specification: delete the trailing spaces,
then delete the trailing run of non-space characters. -/
def word_backspace_spec (e : List Char) : List Char :=
  (e.rdropWhile (fun c => c == ' ')).rdropWhile (fun c => c != ' ')

/-- The number of stars at the end of the characters `a`. -/
def trailing_stars (a : List Char) : Nat :=
  (a.reverse.takeWhile (fun c => c == '*')).length

/-- The trailing word of a text in the words of the specification: its trailing run
of non-space characters. -/
def trailing_word (e : List Char) : List Char :=
  e.rtakeWhile (fun c => c != ' ')

/-- The runs that the passes of the loop `while (*s  &&  !done)` scan, in order: for
each pass, the character `x` it is entered on and the value of `hits` after the inner
loop `while (*s == x)`.  The bound on the number of passes is as in `scan`. -/
def scan_runs (max_chars : Int) : Nat → State → List Char → List (Char × Nat)
  | _, _, [] => []
  | 0, _, _ :: _ => []
  | fuel + 1, st, x :: s1 =>
    if st.done then []
    else (x, (count_hits x s1 1).1) ::
      scan_runs max_chars fuel (step max_chars st x s1).1 (step max_chars st x s1).2

/-- The runs scanned when the loop is run on the characters `s`. -/
def runs_scanned (max_chars : Int) (st : State) (s : List Char) : List (Char × Nat) :=
  scan_runs max_chars s.length st s

/-- The characters that a list of runs stands for. -/
def expand (rs : List (Char × Nat)) : List Char :=
  (rs.map (fun r => List.replicate r.2 r.1)).flatten

/-- The maximal run-length grouping of a string, in the words of the specification
(4.1): consecutive identical characters are grouped into runs, each a character with
the number of times it is repeated. -/
def group_runs : List Char → List (Char × Nat)
  | [] => []
  | x :: s =>
    match group_runs s with
    | [] => [(x, 1)]
    | (y, k) :: rs => if x = y then (y, k + 1) :: rs else (x, 1) :: (y, k) :: rs

/-! ## Buffers -/

theorem store_below (cs : List Char) : ∀ (b : Nat → Char) (i j : Nat), j < i →
    store b i cs j = b j := by
  induction cs with
  | nil => intro b i j _; rfl
  | cons c cs ih =>
    intro b i j h
    have h1 : j < i + 1 := Nat.lt_succ_of_lt h
    have h2 : j ≠ i := Nat.ne_of_lt h
    simp [store, ih _ _ _ h1, poke, h2]

theorem store_at (cs : List Char) : ∀ (b : Nat → Char) (i k : Nat), k < cs.length →
    store b i cs (i + k) = cs.getD k '\x00' := by
  induction cs with
  | nil => intro b i k h; simp at h
  | cons c cs ih =>
    intro b i k h
    cases k with
    | zero =>
      have h1 : i < i + 1 := Nat.lt_succ_self i
      simp [store, store_below cs _ _ _ h1, poke]
    | succ k =>
      have h1 : k < cs.length := by simpa using h
      have h2 : i + (k + 1) = (i + 1) + k := by omega
      rw [h2]
      simp [store, ih _ _ _ h1]

theorem peek_length (b : Nat → Char) (n : Nat) : (peek b n).length = n := by
  simp [peek]

theorem peek_succ (b : Nat → Char) (n : Nat) : peek b (n + 1) = peek b n ++ [b n] := by
  simp [peek, List.range_succ]

theorem peek_congr (b c : Nat → Char) (n : Nat) (h : ∀ j, j < n → b j = c j) :
    peek b n = peek c n := by
  unfold peek
  apply List.map_congr_left
  intro j hj
  exact h j (List.mem_range.mp hj)

theorem peek_add (b : Nat → Char) (n m : Nat) :
    peek b (n + m) = peek b n ++ (List.range m).map (fun k => b (n + k)) := by
  induction m with
  | zero => simp [peek]
  | succ m ih =>
    rw [← Nat.add_assoc, peek_succ, ih, List.range_succ]
    simp

/-- Reading back what `store` wrote: the bytes below `i` are kept and the bytes of
`out` follow them, whatever was stored after `out`. -/
theorem peek_store (b : Nat → Char) (i : Nat) (out tail : List Char) :
    peek (store b i (out ++ tail)) (i + out.length) = peek b i ++ out := by
  rw [peek_add]
  congr 1
  · exact peek_congr _ _ _ (fun j hj => store_below _ _ _ _ hj)
  · apply List.ext_getElem
    · simp
    · intro k h1 h2
      have hk : k < out.length := h2
      have hk2 : k < (out ++ tail).length := by
        rw [List.length_append]; omega
      simp only [List.getElem_map, List.getElem_range]
      rw [store_at _ _ _ _ hk2]
      simp [List.getD_eq_getElem?_getD, List.getElem?_append_left hk, List.getElem?_eq_getElem hk]

theorem sprintf_transcript (st : State) (out : List Char) :
    (sprintf st out).transcript = st.transcript ++ out := by
  simp only [sprintf, State.transcript]
  exact peek_store _ _ _ _

@[simp] theorem sprintf_mode (st : State) (out : List Char) :
    (sprintf st out).mode = st.mode := rfl

@[simp] theorem sprintf_entered_text (st : State) (out : List Char) :
    (sprintf st out).entered_text = st.entered_text := rfl

@[simp] theorem sprintf_done (st : State) (out : List Char) :
    (sprintf st out).done = st.done := rfl

@[simp] theorem sprintf_ul (st : State) (out : List Char) :
    (sprintf st out).ul = st.ul := rfl

@[simp] theorem sprintf_u (st : State) (out : List Char) :
    (sprintf st out).u = st.u + out.length := rfl

/-! ## Digits -/

theorem isdigit_cases (x : Char) (h : isdigit x = true) :
    x = '0' ∨ x = '1' ∨ x = '2' ∨ x = '3' ∨ x = '4' ∨
      x = '5' ∨ x = '6' ∨ x = '7' ∨ x = '8' ∨ x = '9' := by
  have h1 : 48 ≤ x.toNat ∧ x.toNat ≤ 57 := by
    simp only [isdigit, Bool.and_eq_true, decide_eq_true_eq] at h
    exact h
  have h2 : x = Char.ofNat x.toNat := (Char.ofNat_toNat x).symm
  obtain ⟨ha, hb⟩ := h1
  generalize x.toNat = n at h2 ha hb
  subst h2
  interval_cases n <;> decide

theorem isdigit_ne_star (x : Char) (h : isdigit x = true) : x ≠ '*' := by
  rintro rfl; exact absurd h (by decide)

theorem isdigit_ne_hash (x : Char) (h : isdigit x = true) : x ≠ '#' := by
  rintro rfl; exact absurd h (by decide)

/-! ## The run scanner -/

theorem count_hits_length (x : Char) (s : List Char) :
    ∀ hits, (count_hits x s hits).2.length ≤ s.length := by
  induction s with
  | nil => intro hits; simp [count_hits]
  | cons c s ih =>
    intro hits
    by_cases h : c = x
    · simp only [count_hits, h, if_true, List.length_cons]
      exact Nat.le_succ_of_le (ih _)
    · simp [count_hits, h]

/-- A run of `n` further copies of `x` followed by characters that do not start
with `x` is counted whole. -/
theorem count_hits_replicate (x : Char) (n : Nat) (rest : List Char)
    (h : rest.head? ≠ some x) :
    ∀ hits, count_hits x (List.replicate n x ++ rest) hits = (hits + n, rest) := by
  induction n with
  | zero =>
    intro hits
    cases rest with
    | nil => simp [count_hits]
    | cons c rest =>
      have hc : c ≠ x := by simpa using h
      simp [count_hits, hc]
  | succ n ih =>
    intro hits
    have e : count_hits x (List.replicate (n + 1) x ++ rest) hits =
        count_hits x (List.replicate n x ++ rest) (hits + 1) := by
      simp [List.replicate_succ, count_hits]
    rw [e, ih]
    congr 1
    omega

theorem selector_length (st : State) (s : List Char) :
    (selector st s).2.length ≤ s.length := by
  cases s with
  | nil => simp [selector]
  | cons c rest =>
    simp only [selector]
    split_ifs <;> simp

theorem step_length (max_chars : Int) (st : State) (x : Char) (s1 : List Char) :
    (step max_chars st x s1).2.length ≤ s1.length := by
  have h := count_hits_length x s1 1
  simp only [step]
  split_ifs
  · exact le_trans (selector_length _ _) h
  all_goals exact h

/-! ## The decoding loop -/

theorem scan_fuel (max_chars : Int) : ∀ (n m : Nat) (st : State) (s : List Char),
    s.length ≤ n → s.length ≤ m → scan max_chars n st s = scan max_chars m st s := by
  intro n
  induction n with
  | zero =>
    intro m st s hn _
    have : s = [] := List.length_eq_zero.mp (Nat.le_zero.mp hn)
    subst this
    cases m <;> rfl
  | succ n ih =>
    intro m st s hn hm
    cases s with
    | nil => cases m <;> rfl
    | cons x s1 =>
      cases m with
      | zero => simp at hm
      | succ m =>
        simp only [scan]
        split_ifs
        · rfl
        · have h := step_length max_chars st x s1
          simp only [List.length_cons] at hn hm
          exact ih m _ _ (by omega) (by omega)

/-- The bound on the number of passes is never reached: the loop ends. -/
theorem scan_terminates (max_chars : Int) : ∀ (n : Nat) (st : State) (s : List Char),
    s.length ≤ n → ∃ st1, scan max_chars n st s = some st1 := by
  intro n
  induction n with
  | zero =>
    intro st s hn
    have : s = [] := List.length_eq_zero.mp (Nat.le_zero.mp hn)
    subst this
    exact ⟨st, rfl⟩
  | succ n ih =>
    intro st s hn
    cases s with
    | nil => exact ⟨st, rfl⟩
    | cons x s1 =>
      simp only [scan]
      split_ifs
      · exact ⟨st, rfl⟩
      · have h := step_length max_chars st x s1
        simp only [List.length_cons] at hn
        exact ih _ _ (by omega)

theorem decode_terminates (max_chars : Int) (st : State) (s : List Char) :
    ∃ st1, decode max_chars st s = some st1 :=
  scan_terminates max_chars s.length st s (Nat.le_refl _)

@[simp] theorem decode_nil (max_chars : Int) (st : State) :
    decode max_chars st [] = some st := rfl

/-- One pass of the loop: the unfolding of `decode` on a non-empty input. -/
theorem decode_cons (max_chars : Int) (st : State) (x : Char) (s1 : List Char) :
    decode max_chars st (x :: s1) =
      if st.done then some st
      else decode max_chars (step max_chars st x s1).1 (step max_chars st x s1).2 := by
  simp only [decode, List.length_cons, scan]
  split_ifs
  · rfl
  · exact scan_fuel max_chars _ _ _ _ (step_length max_chars st x s1) (Nat.le_refl _)

theorem decode_done (max_chars : Int) (st : State) (s : List Char) (h : st.done = true) :
    decode max_chars st s = some st := by
  cases s with
  | nil => rfl
  | cons x s1 => rw [decode_cons, if_pos h]

/-! ## The branches of the loop body -/

@[simp] theorem text_entry_mode (st : State) (c : Char) : (text_entry st c).mode = st.mode := by
  simp only [text_entry]; split_ifs <;> rfl

@[simp] theorem text_entry_done (st : State) (c : Char) : (text_entry st c).done = st.done := by
  simp only [text_entry]; split_ifs <;> rfl

@[simp] theorem text_entry_entered_text (st : State) (c : Char) :
    (text_entry st c).entered_text = st.entered_text := by
  simp only [text_entry]; split_ifs <;> rfl

@[simp] theorem numeric_loop_mode (x : Char) (n : Nat) : ∀ st : State,
    (numeric_loop x n st).mode = st.mode := by
  induction n with
  | zero => intro st; rfl
  | succ n ih => intro st; simp [numeric_loop, ih]

@[simp] theorem numeric_loop_done (x : Char) (n : Nat) : ∀ st : State,
    (numeric_loop x n st).done = st.done := by
  induction n with
  | zero => intro st; rfl
  | succ n ih => intro st; simp [numeric_loop, ih]

theorem numeric_loop_entered_text (x : Char) (n : Nat) : ∀ st : State,
    (numeric_loop x n st).entered_text = st.entered_text ++ List.replicate n x := by
  induction n with
  | zero => intro st; simp [numeric_loop]
  | succ n ih => intro st; simp [numeric_loop, ih, List.replicate_succ]

theorem numeric_loop_transcript (x : Char) (n : Nat) : ∀ st : State,
    (numeric_loop x n st).transcript =
      st.transcript ++ (List.replicate n [x, ',', ' ']).flatten := by
  induction n with
  | zero => intro st; simp [numeric_loop]
  | succ n ih =>
    intro st
    have h : ({ st with entered_text := st.entered_text ++ [x] } : State).transcript =
        st.transcript := rfl
    simp [numeric_loop, ih, sprintf_transcript, h, List.replicate_succ]

theorem digit_run_mode (max_chars : Int) (st : State) (x : Char) (hits : Nat) :
    (digit_run max_chars st x hits).mode = st.mode := by
  simp only [digit_run]
  cases hm : st.mode <;> simp only [] <;> split_ifs <;> simp [hm]

theorem digit_run_entered_text (max_chars : Int) (st : State) (x : Char) (hits : Nat)
    (h : st.mode ≠ TEXT_ENTRY_MODE_NUMERIC) :
    (digit_run max_chars st x hits).entered_text =
      st.entered_text ++ [resolve st.mode x hits] := by
  simp only [digit_run]
  cases hm : st.mode <;> simp only [] <;> first | exact absurd hm h | (split_ifs <;> rfl)

theorem digit_run_done (max_chars : Int) (st : State) (x : Char) (hits : Nat) :
    (digit_run max_chars st x hits).done =
      (decide (max_chars ≤ ((digit_run max_chars st x hits).entered_text.length : Int))
        || st.done) := by
  simp only [digit_run]
  cases hm : st.mode <;> simp only [] <;> split_ifs with h <;> simp_all

/-- A run of a digit is counted whole and handed to `digit_run`. -/
theorem step_digit (max_chars : Int) (st : State) (x : Char) (n : Nat) (rest : List Char)
    (hx : isdigit x = true) (h : rest.head? ≠ some x) :
    step max_chars st x (List.replicate n x ++ rest) =
      (digit_run max_chars st x (1 + n), rest) := by
  simp only [step, count_hits_replicate x n rest h, if_neg (isdigit_ne_star x hx),
    if_neg (isdigit_ne_hash x hx), hx, if_true]

/-- A single star is a marker: nothing changes. -/
theorem step_star_one (max_chars : Int) (st : State) (rest : List Char)
    (h : rest.head? ≠ some '*') :
    step max_chars st '*' rest = (st, rest) := by
  have e := count_hits_replicate '*' 0 rest h 1
  simp only [List.replicate_zero, List.nil_append] at e
  simp [step, e]

/-- Two stars hand the following characters to the selector switch. -/
theorem step_star_two (max_chars : Int) (st : State) (rest : List Char)
    (h : rest.head? ≠ some '*') :
    step max_chars st '*' ('*' :: rest) = selector st rest := by
  have e := count_hits_replicate '*' 1 rest h 1
  simp only [List.replicate_one, List.singleton_append] at e
  simp [step, e]

/-- A run of hashes sets `done` and stores a NUL at `u`. -/
theorem step_hash (max_chars : Int) (st : State) (n : Nat) (rest : List Char)
    (h : rest.head? ≠ some '#') :
    step max_chars st '#' (List.replicate n '#' ++ rest) =
      ({ st with talk_back := poke st.talk_back st.u '\x00', done := true }, rest) := by
  simp [step, count_hits_replicate '#' n rest h]

/-! ## The length of the entered text -/

theorem selector_text_length (st : State) (s : List Char) :
    (selector st s).1.entered_text.length ≤ st.entered_text.length := by
  cases s with
  | nil => simp [selector]
  | cons c rest =>
    simp only [selector]
    split_ifs
    · cases h : st.entered_text.getLast? <;> simp [backspace, h]
    · exact Nat.le_refl _
    · exact Nat.le_refl _
    · exact Nat.le_refl _
    · exact Nat.le_refl _
    · simp only [backspace_word]
      split_ifs <;> simp [List.length_take]
    · exact Nat.le_refl _
    · exact Nat.le_refl _

/-- Outside numeric mode the cap holds: a pass of the loop body that starts with fewer
than `max_chars` characters ends with at most `max_chars`, and sets `done` when it
ends with `max_chars`. -/
theorem step_cap_outside_numeric (max_chars : Int) (st : State) (x : Char) (s1 : List Char)
    (hm : st.mode ≠ TEXT_ENTRY_MODE_NUMERIC)
    (hlen : (st.entered_text.length : Int) < max_chars) :
    ((step max_chars st x s1).1.entered_text.length : Int) ≤ max_chars ∧
    (max_chars ≤ ((step max_chars st x s1).1.entered_text.length : Int) →
      (step max_chars st x s1).1.done = true) := by
  have hsel := selector_text_length st (count_hits x s1 1).2
  have ht := digit_run_entered_text max_chars st x (count_hits x s1 1).1 hm
  have hd := digit_run_done max_chars st x (count_hits x s1 1).1
  simp only [step]
  split_ifs
  · constructor
    · omega
    · intro h; omega
  · dsimp only
    exact ⟨by omega, fun h => by omega⟩
  · dsimp only
    exact ⟨by omega, fun _ => rfl⟩
  · constructor
    · simp only [ht, List.length_append, List.length_singleton]
      push_cast
      omega
    · intro h
      simp only [hd, Bool.or_eq_true, decide_eq_true_eq]
      exact Or.inl h
  · dsimp only
    exact ⟨by omega, fun h => by omega⟩


/-- C1 (defect of the code): the length of the entered text is not capped by
`max_chars` in numeric mode.  With `max_chars = 1`, a caller who presses `**622#`
gets the two-character text `22`: the numeric branch stores the whole run of two
presses before `t - entered_text >= max_chars` is tested. -/
theorem numeric_run_exceeds_max_chars :
    (get_input_text blank (dtmf_frames ['*', '*', '6', '2', '2', '#']) [] 1 60).map
        (fun o => (o.st.entered_text, o.st.entered_text.length, o.st.done)) =
      some (['2', '2'], 2, true) := by
  decide

/-! ## Entry in lower case -/

/-- C2: a session starts in lower case mode, and for a digit `d` pressed `j` times,
a single star, `d` pressed `k` times and a hash (`j, k ≥ 1`, `max_chars ≥ 2`) the
entered text is the two characters that `j` and `k` presses select in `uclc_presses`,
folded to lower case, and `done` is set; `2*22#` gives `ab`. -/
theorem lower_case_star_separates (mem : Nat → Char) (max_chars : Int) (d : Char)
    (j k : Nat) (hd : isdigit d = true) (hj : 1 ≤ j) (hk : 1 ≤ k) (hm : 2 ≤ max_chars) :
    (fresh mem).mode = TEXT_ENTRY_MODE_LOWER_CASE ∧
    (∃ st1, decode max_chars (fresh mem)
        (List.replicate j d ++ '*' :: (List.replicate k d ++ ['#'])) = some st1 ∧
      st1.entered_text = [tolower (press (uclc_presses (digit_index d)) j),
        tolower (press (uclc_presses (digit_index d)) k)] ∧
      st1.done = true) ∧
    (decode max_chars (fresh mem) ['2', '*', '2', '2', '#']).map State.entered_text =
      some ['a', 'b'] := by
  have main : ∀ (d : Char) (j k : Nat), isdigit d = true → 1 ≤ j → 1 ≤ k →
      ∃ st1, decode max_chars (fresh mem)
        (List.replicate j d ++ '*' :: (List.replicate k d ++ ['#'])) = some st1 ∧
      st1.entered_text = [tolower (press (uclc_presses (digit_index d)) j),
        tolower (press (uclc_presses (digit_index d)) k)] ∧
      st1.done = true := by
    intro d j k hd hj hk
    obtain ⟨j, rfl⟩ : ∃ a, j = 1 + a := ⟨j - 1, by omega⟩
    obtain ⟨k, rfl⟩ : ∃ a, k = 1 + a := ⟨k - 1, by omega⟩
    have hstar : d ≠ '*' := isdigit_ne_star d hd
    have hhash : d ≠ '#' := isdigit_ne_hash d hd
    have e1 : List.replicate (1 + j) d ++ '*' :: (List.replicate (1 + k) d ++ ['#']) =
        d :: (List.replicate j d ++ '*' :: (d :: (List.replicate k d ++ ['#']))) := by
      simp [Nat.add_comm 1, List.replicate_succ]
    -- the first run
    have m0 : (fresh mem).mode ≠ TEXT_ENTRY_MODE_NUMERIC := by simp [fresh]
    have t1 := digit_run_entered_text max_chars (fresh mem) d (1 + j) m0
    have d1 := digit_run_done max_chars (fresh mem) d (1 + j)
    have md1 := digit_run_mode max_chars (fresh mem) d (1 + j)
    have q1 := step_digit max_chars (fresh mem) d j
      ('*' :: (d :: (List.replicate k d ++ ['#']))) hd (by simpa using Ne.symm hstar)
    generalize digit_run max_chars (fresh mem) d (1 + j) = s1 at t1 d1 md1 q1
    have t1a : s1.entered_text = [tolower (press (uclc_presses (digit_index d)) (1 + j))] := by
      rw [t1]; rfl
    have d1a : s1.done = false := by
      rw [d1, t1a]
      have : ¬ (max_chars ≤ 1) := by omega
      simp [fresh, this]
    -- the second run
    have m1 : s1.mode ≠ TEXT_ENTRY_MODE_NUMERIC := by rw [md1]; simp [fresh]
    have t2 := digit_run_entered_text max_chars s1 d (1 + k) m1
    have d2 := digit_run_done max_chars s1 d (1 + k)
    have q2 := step_digit max_chars s1 d k ['#'] hd (by simpa using Ne.symm hhash)
    generalize digit_run max_chars s1 d (1 + k) = s2 at t2 d2 q2
    have t2a : s2.entered_text = [tolower (press (uclc_presses (digit_index d)) (1 + j)),
        tolower (press (uclc_presses (digit_index d)) (1 + k))] := by
      rw [t2, t1a, md1]; rfl
    have q3 := step_star_one max_chars s1 (d :: (List.replicate k d ++ ['#']))
      (by simpa using hstar)
    have q4 := step_hash max_chars s2 0 [] (by simp)
    simp only [List.replicate_zero, List.nil_append] at q4
    have r1 : decode max_chars (fresh mem)
        (List.replicate (1 + j) d ++ '*' :: (List.replicate (1 + k) d ++ ['#'])) =
        decode max_chars s2 ['#'] := by
      rw [e1, decode_cons, if_neg (by simp [fresh]), q1]
      simp only []
      rw [decode_cons, if_neg (by simp [d1a]), q3]
      simp only []
      rw [decode_cons, if_neg (by simp [d1a]), q2]
    rw [r1, decode_cons, q4]
    by_cases hdone : s2.done = true
    · rw [if_pos hdone]
      exact ⟨s2, rfl, t2a, hdone⟩
    · rw [if_neg hdone]
      exact ⟨_, rfl, t2a, rfl⟩
  refine ⟨rfl, main d j k hd hj hk, ?_⟩
  obtain ⟨st1, h1, h2, _⟩ := main '2' 1 2 (by decide) (by decide) (by decide)
  have e : (['2', '*', '2', '2', '#'] : List Char) =
      List.replicate 1 '2' ++ '*' :: (List.replicate 2 '2' ++ ['#']) := rfl
  rw [e, h1, Option.map_some', h2]
  decide

/-- Witness for C2: digit `7`, pressed 3 times and then 6 times, `max_chars = 2`. -/
theorem lower_case_star_separates_witness :
    (fresh blank).mode = TEXT_ENTRY_MODE_LOWER_CASE ∧
    (∃ st1, decode 2 (fresh blank)
        (List.replicate 3 '7' ++ '*' :: (List.replicate 6 '7' ++ ['#'])) = some st1 ∧
      st1.entered_text = [tolower (press (uclc_presses (digit_index '7')) 3),
        tolower (press (uclc_presses (digit_index '7')) 6)] ∧
      st1.done = true) ∧
    (decode 2 (fresh blank) ['2', '*', '2', '2', '#']).map State.entered_text =
      some ['a', 'b'] :=
  lower_case_star_separates blank 2 '7' 3 6 (by decide) (by decide) (by decide) (by decide)

/-- Counterexample for C3: the keys `22*2*#` do not leave the text `b`. -/
theorem end_to_end_not_b :
    ¬ ((get_input_text blank (dtmf_frames ['2', '2', '*', '2', '*', '#']) [] 10 60).map
        (fun o => o.st.entered_text) = some ['b']) := by
  decide

/-- C3 (amended): with no initial digits, `max_chars = 10` and `max_time = 60`, the
keys `22*2*#` leave the text `ba` (two presses of `2` give `b`, the star is a marker,
one press of `2` gives `a`), and `get_input_text` returns 0 with `done` set. -/
theorem end_to_end_ba (mem : Nat → Char) :
    (get_input_text mem (dtmf_frames ['2', '2', '*', '2', '*', '#']) [] 10 60).map
        (fun o => (o.st.entered_text, o.st.done, o.res)) =
      some (['b', 'a'], true, 0) := by
  rfl

/-! ## Numeric mode -/

theorem transcript_congr (a b : State) (h1 : a.talk_back = b.talk_back) (h2 : a.u = b.u) :
    a.transcript = b.transcript := by
  simp [State.transcript, h1, h2]

theorem digit_run_numeric (max_chars : Int) (st : State) (x : Char) (hits : Nat)
    (h : st.mode = TEXT_ENTRY_MODE_NUMERIC) :
    (digit_run max_chars st x hits).entered_text =
        st.entered_text ++ List.replicate (hits - 1) x ++ [x] ∧
    (digit_run max_chars st x hits).transcript =
        st.transcript ++ (List.replicate (hits - 1) [x, ',', ' ']).flatten ++ [x, ',', ' '] := by
  have e := numeric_loop_entered_text x (hits - 1) st
  have t := numeric_loop_transcript x (hits - 1) st
  constructor
  · simp only [digit_run, h]
    split_ifs <;> simp [e]
  · rw [← t, ← sprintf_transcript]
    simp only [digit_run, h]
    split_ifs <;> exact transcript_congr _ _ rfl rfl

/-- C4: in numeric mode a run of `n ≥ 1` presses of a digit `d` is consumed whole,
appends `d` exactly `n` times to the entered text and `n` copies of `d, ` to the
transcript; from a session put in numeric mode, `22` gives the text `22`. -/
theorem numeric_run_appends (mem : Nat → Char) (max_chars : Int) (st : State) (d : Char)
    (n : Nat) (rest : List Char) (hm : st.mode = TEXT_ENTRY_MODE_NUMERIC)
    (hd : isdigit d = true) (hn : 1 ≤ n) (hr : rest.head? ≠ some d) :
    (step max_chars st d (List.replicate (n - 1) d ++ rest)).2 = rest ∧
    (step max_chars st d (List.replicate (n - 1) d ++ rest)).1.entered_text =
      st.entered_text ++ List.replicate n d ∧
    (step max_chars st d (List.replicate (n - 1) d ++ rest)).1.transcript =
      st.transcript ++ (List.replicate n [d, ',', ' ']).flatten ∧
    (decode max_chars { fresh mem with mode := TEXT_ENTRY_MODE_NUMERIC } ['2', '2']).map
      State.entered_text = some ['2', '2'] := by
  have key : ∀ (st : State) (d : Char) (n : Nat) (rest : List Char),
      st.mode = TEXT_ENTRY_MODE_NUMERIC → isdigit d = true → rest.head? ≠ some d →
      (step max_chars st d (List.replicate n d ++ rest)).2 = rest ∧
      (step max_chars st d (List.replicate n d ++ rest)).1.entered_text =
        st.entered_text ++ List.replicate (n + 1) d ∧
      (step max_chars st d (List.replicate n d ++ rest)).1.transcript =
        st.transcript ++ (List.replicate (n + 1) [d, ',', ' ']).flatten := by
    intro st d n rest hm hd hr
    rw [step_digit max_chars st d n rest hd hr]
    obtain ⟨h1, h2⟩ := digit_run_numeric max_chars st d (1 + n) hm
    refine ⟨rfl, ?_, ?_⟩
    · rw [h1]
      simp [List.replicate_succ']
    · rw [h2]
      simp [List.replicate_succ']
  obtain ⟨n, rfl⟩ : ∃ a, n = a + 1 := ⟨n - 1, by omega⟩
  obtain ⟨k1, k2, k3⟩ := key st d n rest hm hd hr
  refine ⟨k1, k2, k3, ?_⟩
  have e1 := (digit_run_numeric max_chars
    { fresh mem with mode := TEXT_ENTRY_MODE_NUMERIC } '2' (1 + 1) rfl).1
  have e3 := step_digit max_chars { fresh mem with mode := TEXT_ENTRY_MODE_NUMERIC } '2' 1 []
    (by decide) (by simp)
  have e0 : (['2', '2'] : List Char) = '2' :: (List.replicate 1 '2' ++ []) := rfl
  rw [e0, decode_cons, if_neg (by simp [fresh]), e3]
  simp only [decode_nil, Option.map_some']
  rw [e1]
  rfl

/-- Witness for C4: three presses of `5` followed by `1`, after the text `7`. -/
theorem numeric_run_appends_witness :
    (step 10 { fresh blank with mode := TEXT_ENTRY_MODE_NUMERIC, entered_text := ['7'] } '5'
      (List.replicate (3 - 1) '5' ++ ['1'])).2 = ['1'] ∧
    (step 10 { fresh blank with mode := TEXT_ENTRY_MODE_NUMERIC, entered_text := ['7'] } '5'
      (List.replicate (3 - 1) '5' ++ ['1'])).1.entered_text =
      ['7'] ++ List.replicate 3 '5' ∧
    (step 10 { fresh blank with mode := TEXT_ENTRY_MODE_NUMERIC, entered_text := ['7'] } '5'
      (List.replicate (3 - 1) '5' ++ ['1'])).1.transcript =
      State.transcript
          { fresh blank with mode := TEXT_ENTRY_MODE_NUMERIC, entered_text := ['7'] } ++
        (List.replicate 3 ['5', ',', ' ']).flatten ∧
    (decode 10 { fresh blank with mode := TEXT_ENTRY_MODE_NUMERIC } ['2', '2']).map
      State.entered_text = some ['2', '2'] :=
  numeric_run_appends blank 10
    { fresh blank with mode := TEXT_ENTRY_MODE_NUMERIC, entered_text := ['7'] } '5' 3 ['1']
    rfl (by decide) (by decide) (by decide)

/-! ## The tables -/

/-- C5: wraparound.  For `k ≥ 1` presses, `k + L` presses select the same character
as `k` presses, where `L` is the length of the table row of the digit in the mode; in
particular `L + 1` presses select what one press selects. -/
theorem resolve_wraparound (m : Mode) (d : Char) (k : Nat) (hk : 1 ≤ k) :
    resolve m d (k + (row m d).length) = resolve m d k ∧
    resolve m d ((row m d).length + 1) = resolve m d 1 := by
  have h1 : ∀ L : Nat, (k + L - 1) % L = (k - 1) % L := by
    intro L
    have : k + L - 1 = (k - 1) + L := by omega
    rw [this, Nat.add_mod_right]
  have h2 : ∀ L : Nat, (L + 1 - 1) % L = (1 - 1) % L := by
    intro L; simp
  cases m <;> simp only [resolve, row, press, h1, h2] <;> simp

/-- Witness for C5: digit `7` in symbol mode, 2 presses. -/
theorem resolve_wraparound_witness :
    resolve TEXT_ENTRY_MODE_SYMBOL '7' (2 + (row TEXT_ENTRY_MODE_SYMBOL '7').length) =
      resolve TEXT_ENTRY_MODE_SYMBOL '7' 2 ∧
    resolve TEXT_ENTRY_MODE_SYMBOL '7' ((row TEXT_ENTRY_MODE_SYMBOL '7').length + 1) =
      resolve TEXT_ENTRY_MODE_SYMBOL '7' 1 :=
  resolve_wraparound TEXT_ENTRY_MODE_SYMBOL '7' 2 (by decide)

/-- C6 (defect of the code): the rows of the description table that the decoder does
not follow in upper case mode are exactly the four rows of the digit `0`.  One press
of `0` enters a space where the table lists a comma, and the comma, the period and the
question mark each need one press more than listed; the literal `0` needs five. -/
theorem descrip_alpha_zero_differs :
    descrip_alpha.filter (fun e => resolve TEXT_ENTRY_MODE_UPPER_CASE e.1 e.2.1 != e.2.2) =
      [('0', 1, ','), ('0', 2, '.'), ('0', 3, '?'), ('0', 4, '0')] ∧
    resolve TEXT_ENTRY_MODE_UPPER_CASE '0' 1 = ' ' ∧
    resolve TEXT_ENTRY_MODE_UPPER_CASE '0' 2 = ',' ∧
    resolve TEXT_ENTRY_MODE_UPPER_CASE '0' 3 = '.' ∧
    resolve TEXT_ENTRY_MODE_UPPER_CASE '0' 4 = '?' ∧
    resolve TEXT_ENTRY_MODE_UPPER_CASE '0' 5 = '0' ∧
    (decode 10 (fresh blank) ['*', '*', '8', '0', '#']).map State.entered_text =
      some [' '] := by
  decide

/-- C7: in both tables the last character of the row of a digit is the digit itself,
so as many presses as the row has characters enter the digit, in lower case, upper
case and symbol mode; the digit `1` cycles through `!`, `:`, `;`, `#`, `1` and a fifth
press of `7` or `9` gives `7` or `9`. -/
theorem full_row_gives_digit (d : Char) (hd : isdigit d = true) :
    resolve TEXT_ENTRY_MODE_LOWER_CASE d (row TEXT_ENTRY_MODE_LOWER_CASE d).length = d ∧
    resolve TEXT_ENTRY_MODE_UPPER_CASE d (row TEXT_ENTRY_MODE_UPPER_CASE d).length = d ∧
    resolve TEXT_ENTRY_MODE_SYMBOL d (row TEXT_ENTRY_MODE_SYMBOL d).length = d ∧
    (List.range 5).map (fun k => resolve TEXT_ENTRY_MODE_UPPER_CASE '1' (k + 1)) =
      ['!', ':', ';', '#', '1'] ∧
    (List.range 5).map (fun k => resolve TEXT_ENTRY_MODE_LOWER_CASE '1' (k + 1)) =
      ['!', ':', ';', '#', '1'] ∧
    resolve TEXT_ENTRY_MODE_UPPER_CASE '7' 5 = '7' ∧
    resolve TEXT_ENTRY_MODE_LOWER_CASE '7' 5 = '7' ∧
    resolve TEXT_ENTRY_MODE_UPPER_CASE '9' 5 = '9' ∧
    resolve TEXT_ENTRY_MODE_LOWER_CASE '9' 5 = '9' := by
  rcases isdigit_cases d hd with h | h | h | h | h | h | h | h | h | h <;> subst h <;> decide

/-- Witness for C7: the digit `8`. -/
theorem full_row_gives_digit_witness :
    resolve TEXT_ENTRY_MODE_LOWER_CASE '8' (row TEXT_ENTRY_MODE_LOWER_CASE '8').length = '8' ∧
    resolve TEXT_ENTRY_MODE_UPPER_CASE '8' (row TEXT_ENTRY_MODE_UPPER_CASE '8').length = '8' ∧
    resolve TEXT_ENTRY_MODE_SYMBOL '8' (row TEXT_ENTRY_MODE_SYMBOL '8').length = '8' ∧
    (List.range 5).map (fun k => resolve TEXT_ENTRY_MODE_UPPER_CASE '1' (k + 1)) =
      ['!', ':', ';', '#', '1'] ∧
    (List.range 5).map (fun k => resolve TEXT_ENTRY_MODE_LOWER_CASE '1' (k + 1)) =
      ['!', ':', ';', '#', '1'] ∧
    resolve TEXT_ENTRY_MODE_UPPER_CASE '7' 5 = '7' ∧
    resolve TEXT_ENTRY_MODE_LOWER_CASE '7' 5 = '7' ∧
    resolve TEXT_ENTRY_MODE_UPPER_CASE '9' 5 = '9' ∧
    resolve TEXT_ENTRY_MODE_LOWER_CASE '9' 5 = '9' :=
  full_row_gives_digit '8' (by decide)

/-! ## Backspace over a word -/

/-- The backward loop started on the last byte of `l` stops on the last byte of `l`
that fails `cond`, or on the first byte of `l` when there is none. -/
theorem back_while_eq (cond : Char → Bool) (l : List Char) : ∀ r : List Char,
    back_while cond (l ++ r) (l.length - 1) = (l.rdropWhile cond).length - 1 := by
  induction l using List.reverseRecOn with
  | nil => intro r; simp [back_while]
  | append_singleton l a ih =>
    intro r
    have hlen : (l ++ [a]).length - 1 = l.length := by simp
    rw [hlen]
    cases hl : l.length with
    | zero =>
      have : l = [] := List.length_eq_zero.mp hl
      subst this
      simp only [back_while, List.nil_append, List.rdropWhile_singleton]
      split_ifs <;> simp
    | succ p =>
      have hget : (l ++ [a] ++ r).getD (p + 1) '\x00' = a := by
        rw [← hl, List.append_assoc, List.getD_eq_getElem?_getD,
          List.getElem?_append_right (Nat.le_refl _)]
        simp
      simp only [back_while, hget]
      by_cases hc : cond a = true
      · rw [if_pos hc, List.rdropWhile_concat_pos _ _ _ hc]
        have hp : p = l.length - 1 := by omega
        rw [hp, List.append_assoc]
        exact ih _
      · rw [if_neg hc, List.rdropWhile_concat_neg _ _ _ hc]
        simp [hl]

theorem rdropWhile_getLast_space (l : List Char)
    (h : l.rdropWhile (fun c => c != ' ') ≠ []) :
    (l.rdropWhile (fun c => c != ' ')).getLast h = ' ' := by
  have := List.rdropWhile_last_not (fun c => c != ' ') l h
  simpa using this

/-- The text left by the backspace over a word, in terms of the specification's
word-backspace: the two agree except when the specification leaves nothing and the
text starts with a space, where the source leaves that space. -/
theorem backspace_word_entered_text (st : State) :
    (backspace_word st).entered_text =
      if word_backspace_spec st.entered_text = [] then
        (if st.entered_text.head? = some ' ' then [' '] else [])
      else word_backspace_spec st.entered_text := by
  by_cases hpos : 0 < st.entered_text.length
  · simp only [backspace_word, if_pos hpos]
    generalize st.entered_text = e at hpos
    obtain ⟨r1, hr1⟩ : e.rdropWhile (fun c => c == ' ') <+: e := List.rdropWhile_prefix _ _
    have h2 : back_while (fun c => c == ' ') e (e.length - 1) =
        (e.rdropWhile (fun c => c == ' ')).length - 1 := by
      have := back_while_eq (fun c => c == ' ') e []
      simpa using this
    rw [h2]
    have h3 : back_while (fun c => c != ' ') e ((e.rdropWhile (fun c => c == ' ')).length - 1) =
        (word_backspace_spec e).length - 1 := by
      have := back_while_eq (fun c => c != ' ') (e.rdropWhile (fun c => c == ' ')) r1
      rw [hr1] at this
      exact this
    rw [h3]
    obtain ⟨r2, hr2⟩ : word_backspace_spec e <+: e.rdropWhile (fun c => c == ' ') :=
      List.rdropWhile_prefix _ _
    have hlast : ∀ h : word_backspace_spec e ≠ [], (word_backspace_spec e).getLast h = ' ' :=
      fun h => rdropWhile_getLast_space _ h
    generalize word_backspace_spec e = v at hr2 hlast
    have he : e = v ++ (r2 ++ r1) := by rw [← List.append_assoc, hr2, hr1]
    by_cases hnil : v = []
    · subst hnil
      rw [if_pos rfl]
      cases e with
      | nil => simp at hpos
      | cons c tl =>
        by_cases hc : c = ' '
        · subst hc; simp
        · simp [hc]
    · rw [if_neg hnil]
      have hlast := hlast hnil
      have hvl : 0 < v.length := List.length_pos.mpr hnil
      have hget : e.getD (v.length - 1) '\x00' = ' ' := by
        rw [he, List.getD_eq_getElem?_getD,
          List.getElem?_append_left (by omega : v.length - 1 < v.length),
          List.getElem?_eq_getElem (by omega : v.length - 1 < v.length)]
        rw [List.getLast_eq_getElem] at hlast
        simp [hlast]
      rw [if_pos hget, he]
      have : v.length - 1 + 1 = v.length := by omega
      rw [this, List.take_left']
      rfl
  · have he : st.entered_text = [] := by
      apply List.length_eq_zero.mp; omega
    simp [backspace_word, he, word_backspace_spec]

/-- On a text that holds a character other than a space, the backspace over a word
leaves what the specification's word-backspace leaves. -/
theorem backspace_word_agrees (st : State) (h : ∃ c ∈ st.entered_text, c ≠ ' ') :
    (backspace_word st).entered_text = word_backspace_spec st.entered_text := by
  rw [backspace_word_entered_text]
  split_ifs with h1 h2
  · exfalso
    obtain ⟨c, hc, hne⟩ := h
    simp only [word_backspace_spec, List.rdropWhile_eq_nil_iff] at h1
    cases he : st.entered_text with
    | nil => rw [he] at hc; simp at hc
    | cons a tl =>
      rw [he] at h2
      have ha : a = ' ' := by simpa using h2
      have hw : List.rdropWhile (fun c => c == ' ') st.entered_text ≠ [] := by
        intro hnil
        rw [List.rdropWhile_eq_nil_iff] at hnil
        exact hne (by simpa using hnil c hc)
      obtain ⟨r, hr⟩ := List.rdropWhile_prefix (fun c => c == ' ') st.entered_text
      cases hw' : List.rdropWhile (fun c => c == ' ') st.entered_text with
      | nil => exact hw hw'
      | cons b w =>
        rw [hw', he] at hr
        have hb : b = a := by
          simp only [List.cons_append, List.cons.injEq] at hr
          exact hr.1
        have := h1 b (by rw [hw']; simp)
        rw [hb, ha] at this
        simp at this
  · exact h1.symm
  · rfl

/-- C8 (defect of the code): on a text made of spaces only, the backspace over a word
leaves one space where the specification's word-backspace leaves nothing: `**9`
does not change the text ` ` and turns three spaces into one, and a caller who
presses `0**9#` ends with the text ` `.  (On `hello world` the text left is `hello `,
as the specification has it.) -/
theorem word_backspace_keeps_a_space :
    (step 10 { fresh blank with entered_text := [' '] } '*' ['*', '9']).1.entered_text = [' '] ∧
    word_backspace_spec [' '] = [] ∧
    (step 10 { fresh blank with entered_text := [' ', ' ', ' '] } '*' ['*', '9']).1.entered_text
      = [' '] ∧
    word_backspace_spec [' ', ' ', ' '] = [] ∧
    (get_input_text blank (dtmf_frames ['0', '*', '*', '9', '#']) [] 10 60).map
      (fun o => o.st.entered_text) = some [' '] ∧
    (step 20 { fresh blank with
        entered_text := ['h', 'e', 'l', 'l', 'o', ' ', 'w', 'o', 'r', 'l', 'd'] }
      '*' ['*', '9']).1.entered_text = ['h', 'e', 'l', 'l', 'o', ' '] := by
  decide

/-! ## Backspace -/

/-- Counterexample for C10: `**3` is not ignored; the `3` is entered as a digit run
and the text gains `d`. -/
theorem malformed_selector_not_ignored :
    ¬ ((decode 10 (fresh blank) ['*', '*', '3']).map State.entered_text =
        some (fresh blank).entered_text) ∧
    (decode 10 (fresh blank) ['*', '*', '3']).map State.entered_text = some ['d'] := by
  decide

/-- C10 (amended): for a character `c` outside `2 5 6 7 8 9 #`, the two stars change
nothing and `c` is not consumed as a selector: it is processed next as an ordinary
character, so decoding `**c` gives what decoding `c` alone gives.  When `c` is not a
decimal digit the whole state is left as it was; when `c` is a decimal digit (one of
`0 1 3 4`) it is entered as a run of one press. -/
theorem malformed_selector (max_chars : Int) (st : State) (c : Char) (rest : List Char)
    (hc : c ∉ ['2', '5', '6', '7', '8', '9', '#']) :
    (c ≠ '*' → step max_chars st '*' ('*' :: c :: rest) = (st, c :: rest)) ∧
    decode max_chars st ['*', '*', c] = decode max_chars st [c] ∧
    (isdigit c = false → decode max_chars st ['*', '*', c] = some st) ∧
    (isdigit c = true → st.done = false →
      decode max_chars st ['*', '*', c] = some (digit_run max_chars st c 1)) := by
  simp only [List.mem_cons, List.mem_singleton, List.not_mem_nil, or_false, not_or] at hc
  obtain ⟨h2, h5, h6, h7, h8, h9, hh⟩ := hc
  have hstep : ∀ rest : List Char, c ≠ '*' →
      step max_chars st '*' ('*' :: c :: rest) = (st, c :: rest) := by
    intro rest hs
    rw [step_star_two max_chars st (c :: rest) (by simpa using hs)]
    simp [selector, h2, h5, h6, h7, h8, h9, hh]
  have hsame : decode max_chars st ['*', '*', c] = decode max_chars st [c] := by
    by_cases hd : st.done = true
    · rw [decode_done _ _ _ hd, decode_done _ _ _ hd]
    · by_cases hs : c = '*'
      · subst hs
        have e1 := step_star_one max_chars st [] (by simp)
        have e3 : step max_chars st '*' ['*', '*'] = (st, []) := by
          simp [step, count_hits]
        rw [decode_cons, if_neg hd, e3, decode_cons, if_neg hd, e1]
      · rw [decode_cons, if_neg hd, hstep [] hs]
  have hone : isdigit c = false → decode max_chars st [c] = some st := by
    intro hnd
    by_cases hd : st.done = true
    · exact decode_done _ _ _ hd
    · rw [decode_cons, if_neg hd]
      have e : step max_chars st c [] = (st, []) := by
        by_cases hs : c = '*'
        · subst hs; exact step_star_one max_chars st [] (by simp)
        · simp [step, count_hits, hs, hh, hnd]
      rw [e]
      rfl
  refine ⟨hstep rest, hsame, ?_, ?_⟩
  · intro hnd
    rw [hsame]
    exact hone hnd
  · intro hdig hd
    rw [hsame, decode_cons, if_neg (by simp [hd])]
    have e := step_digit max_chars st c 0 [] hdig (by simp)
    simp only [List.replicate_zero, List.nil_append] at e
    rw [e]
    rfl

/-- Witness for C10: the character `3` after the text `a`. -/
theorem malformed_selector_witness :
    ('3' ≠ '*' → step 10 { fresh blank with entered_text := ['a'] } '*' ('*' :: '3' :: ['3']) =
      ({ fresh blank with entered_text := ['a'] }, '3' :: ['3'])) ∧
    decode 10 { fresh blank with entered_text := ['a'] } ['*', '*', '3'] =
      decode 10 { fresh blank with entered_text := ['a'] } ['3'] ∧
    (isdigit '3' = false →
      decode 10 { fresh blank with entered_text := ['a'] } ['*', '*', '3'] =
        some { fresh blank with entered_text := ['a'] }) ∧
    (isdigit '3' = true → ({ fresh blank with entered_text := ['a'] } : State).done = false →
      decode 10 { fresh blank with entered_text := ['a'] } ['*', '*', '3'] =
        some (digit_run 10 { fresh blank with entered_text := ['a'] } '3' 1)) :=
  malformed_selector 10 { fresh blank with entered_text := ['a'] } '3' ['3'] (by decide)

/-! ## Runs that are ignored -/

/-- C11: a run of stars of length 1 or of length above 2, and a run of a character
that is neither a star, a hash nor a decimal digit, is consumed whole and changes
nothing: the mode, the entered text, the transcript and `done` are as before. -/
theorem ignored_runs (max_chars : Int) (st : State) (x : Char) (k : Nat) (rest : List Char)
    (hk : 1 ≤ k) (hr : rest.head? ≠ some x)
    (hx : (x = '*' ∧ (k = 1 ∨ 2 < k)) ∨ (x ≠ '*' ∧ x ≠ '#' ∧ isdigit x = false)) :
    step max_chars st x (List.replicate (k - 1) x ++ rest) = (st, rest) ∧
    (step max_chars st x (List.replicate (k - 1) x ++ rest)).1.mode = st.mode ∧
    (step max_chars st x (List.replicate (k - 1) x ++ rest)).1.entered_text = st.entered_text ∧
    (step max_chars st x (List.replicate (k - 1) x ++ rest)).1.transcript = st.transcript ∧
    (step max_chars st x (List.replicate (k - 1) x ++ rest)).1.done = st.done := by
  have main : step max_chars st x (List.replicate (k - 1) x ++ rest) = (st, rest) := by
    have e := count_hits_replicate x (k - 1) rest hr 1
    have hk1 : 1 + (k - 1) = k := by omega
    rw [hk1] at e
    rcases hx with ⟨hs, hc⟩ | ⟨hs, hh, hd⟩
    · have h2 : k ≠ 2 := by omega
      subst hs
      simp [step, e, h2]
    · simp [step, e, hs, hh, hd]
  rw [main]
  exact ⟨rfl, rfl, rfl, rfl, rfl⟩

/-- Witness for C11: a run of three stars before a `5`. -/
theorem ignored_runs_witness :
    step 10 (fresh blank) '*' (List.replicate (3 - 1) '*' ++ ['5']) = (fresh blank, ['5']) ∧
    (step 10 (fresh blank) '*' (List.replicate (3 - 1) '*' ++ ['5'])).1.mode =
      (fresh blank).mode ∧
    (step 10 (fresh blank) '*' (List.replicate (3 - 1) '*' ++ ['5'])).1.entered_text =
      (fresh blank).entered_text ∧
    (step 10 (fresh blank) '*' (List.replicate (3 - 1) '*' ++ ['5'])).1.transcript =
      (fresh blank).transcript ∧
    (step 10 (fresh blank) '*' (List.replicate (3 - 1) '*' ++ ['5'])).1.done =
      (fresh blank).done :=
  ignored_runs 10 (fresh blank) '*' 3 ['5'] (by decide) (by decide) (Or.inl ⟨rfl, Or.inr (by decide)⟩)

/-! ## Termination by a hash -/

theorem takeWhile_append_stop (p : Char → Bool) (c : Char) (hc : p c = false) :
    ∀ l l1 : List Char, (l ++ c :: l1).takeWhile p = l.takeWhile p := by
  intro l
  induction l with
  | nil => intro l1; simp [List.takeWhile, hc]
  | cons a l ih =>
    intro l1
    by_cases ha : p a = true
    · simp [List.takeWhile, ha, ih]
    · simp [List.takeWhile, ha]

/-- The stars at the end of a text are those after its last character that is not
a star. -/
theorem trailing_stars_after (p q : List Char) (c : Char) (hc : c ≠ '*') :
    trailing_stars (p ++ c :: q) = trailing_stars q := by
  simp only [trailing_stars, List.reverse_append, List.reverse_cons, List.append_assoc,
    List.singleton_append]
  rw [takeWhile_append_stop _ c (by simpa using hc)]

theorem count_hits_append_hash (x : Char) (hx : x ≠ '#') (b : List Char) :
    ∀ (s : List Char) (h : Nat), count_hits x (s ++ '#' :: b) h =
      ((count_hits x s h).1, (count_hits x s h).2 ++ '#' :: b) := by
  intro s
  induction s with
  | nil => intro h; simp [count_hits, Ne.symm hx]
  | cons c s ih =>
    intro h
    by_cases hc : c = x
    · simp [count_hits, hc, ih]
    · simp [count_hits, hc]

theorem count_hits_head (x : Char) : ∀ (s : List Char) (h : Nat),
    (count_hits x s h).2.head? ≠ some x := by
  intro s
  induction s with
  | nil => intro h; simp [count_hits]
  | cons c s ih =>
    intro h
    by_cases hc : c = x
    · simp only [count_hits, hc, if_true]; exact ih _
    · simp [count_hits, hc]

/-- What the run scanner returns: the count grows by the number of characters
consumed, all of them equal to `x`. -/
theorem count_hits_split (x : Char) : ∀ (s : List Char) (h : Nat),
    h ≤ (count_hits x s h).1 ∧
    s = List.replicate ((count_hits x s h).1 - h) x ++ (count_hits x s h).2 := by
  intro s
  induction s with
  | nil => intro h; simp [count_hits]
  | cons c s ih =>
    intro h
    by_cases hc : c = x
    · obtain ⟨h1, h2⟩ := ih (h + 1)
      simp only [count_hits, hc, if_true]
      refine ⟨by omega, ?_⟩
      have e : (count_hits x s (h + 1)).1 - h = ((count_hits x s (h + 1)).1 - (h + 1)) + 1 := by
        omega
      rw [e, List.replicate_succ, List.cons_append, ← h2]
    · simp [count_hits, hc]

theorem selector_append (st : State) (s t : List Char) (hs : s ≠ []) :
    selector st (s ++ t) = ((selector st s).1, (selector st s).2 ++ t) := by
  cases s with
  | nil => exact absurd rfl hs
  | cons c rest =>
    simp only [selector, List.cons_append]
    split_ifs <;> rfl

/-- A pass of the loop body does not look at a hash that follows the characters it
consumes, except when it is entered on exactly two stars right before the hash. -/
theorem step_append_hash (max_chars : Int) (st : State) (x : Char) (s1 b : List Char)
    (hx : x ≠ '#') (hbad : ¬ (x = '*' ∧ s1 = ['*'])) :
    step max_chars st x (s1 ++ '#' :: b) =
      ((step max_chars st x s1).1, (step max_chars st x s1).2 ++ '#' :: b) := by
  obtain ⟨h1, h2⟩ := count_hits_split x s1 1
  simp only [step, count_hits_append_hash x hx b]
  by_cases hs : x = '*'
  · simp only [hs, if_true]
    by_cases h2' : (count_hits x s1 1).1 = 2
    · have hne : (count_hits x s1 1).2 ≠ [] := by
        intro hnil
        apply hbad
        refine ⟨hs, ?_⟩
        rw [h2', hnil] at h2
        simpa [hs] using h2
      rw [hs] at h2' hne
      simp only [h2', if_true]
      exact selector_append st _ _ hne
    · rw [hs] at h2'
      simp only [h2', if_false]
  · simp only [hs, if_false, hx]
    split_ifs <;> rfl

theorem trailing_stars_replicate (x : Char) (hx : x ≠ '*') (q : List Char) :
    ∀ k : Nat, trailing_stars (List.replicate k x ++ q) = trailing_stars q := by
  intro k
  induction k with
  | zero => simp
  | succ k ih =>
    have e : List.replicate (k + 1) x ++ q = [] ++ x :: (List.replicate k x ++ q) := by
      simp [List.replicate_succ]
    rw [e, trailing_stars_after _ _ _ hx, ih]

/-- The characters left by a pass of the loop body end with as many stars as the
input did, unless the input was exactly two stars. -/
theorem step_trailing_stars (max_chars : Int) (st : State) (x : Char) (s1 : List Char)
    (hx : x ≠ '#') (h : trailing_stars (x :: s1) ≠ 2) :
    trailing_stars (step max_chars st x s1).2 ≠ 2 := by
  obtain ⟨h1, h2⟩ := count_hits_split x s1 1
  have hhead := count_hits_head x s1 1
  -- the characters after the run
  have key : trailing_stars (count_hits x s1 1).2 ≠ 2 := by
    cases hr : (count_hits x s1 1).2 with
    | nil => simp [trailing_stars]
    | cons c r1 =>
      rw [hr] at h2 hhead
      have hc : c ≠ x := by simpa using hhead
      by_cases hs : x = '*'
      · have hc' : c ≠ '*' := by rw [← hs]; exact hc
        have e : x :: s1 = (x :: List.replicate ((count_hits x s1 1).1 - 1) x) ++ c :: r1 := by
          rw [List.cons_append, ← h2]
        rw [e, trailing_stars_after _ _ _ hc'] at h
        have e2 : c :: r1 = [] ++ c :: r1 := rfl
        rw [e2, trailing_stars_after _ _ _ hc']
        exact h
      · have e : x :: s1 = (x :: List.replicate ((count_hits x s1 1).1 - 1) x) ++ c :: r1 := by
          rw [List.cons_append, ← h2]
        by_cases hc' : c = '*'
        · have e3 : x :: s1 = [] ++ x :: s1 := rfl
          rw [e3, trailing_stars_after _ _ _ hs, h2, trailing_stars_replicate x hs] at h
          exact h
        · have e2 : c :: r1 = [] ++ c :: r1 := rfl
          rw [e, trailing_stars_after _ _ _ hc'] at h
          rw [e2, trailing_stars_after _ _ _ hc']
          exact h
  simp only [step]
  split_ifs with hs h2'
  · -- two stars: the selector switch
    cases hr : (count_hits x s1 1).2 with
    | nil => simp [selector, trailing_stars]
    | cons c r1 =>
      rw [hr] at key hhead
      have hc' : c ≠ '*' := by
        have : c ≠ x := by simpa using hhead
        rw [hs] at this; exact this
      have e2 : c :: r1 = [] ++ c :: r1 := rfl
      have k1 : trailing_stars r1 ≠ 2 := by
        rw [e2, trailing_stars_after _ _ _ hc'] at key
        exact key
      simp only [selector]
      split_ifs <;> first | exact k1 | exact key
  · exact key
  · exact key
  · exact key

theorem decode_hash (max_chars : Int) (st : State) (b : List Char) :
    decode max_chars st ('#' :: b) = decode max_chars st ['#'] ∧
    ∃ st1, decode max_chars st ['#'] = some st1 ∧ (st.done = false → st1.done = true) := by
  by_cases hd : st.done = true
  · rw [decode_done _ _ _ hd, decode_done _ _ _ hd]
    exact ⟨rfl, st, rfl, fun h => by rw [hd] at h; exact absurd h (by decide)⟩
  · have e1 : (step max_chars st '#' b).1 =
        { st with talk_back := poke st.talk_back st.u '\x00', done := true } := by
      simp only [step]
      rfl
    have e2 : (step max_chars st '#' []).1 =
        { st with talk_back := poke st.talk_back st.u '\x00', done := true } := by
      simp only [step]
      rfl
    rw [decode_cons, decode_cons, if_neg hd, if_neg hd, e1, e2,
      decode_done _ _ _ rfl, decode_done _ _ _ rfl]
    exact ⟨rfl, _, rfl, fun _ => rfl⟩

/-- Decoding stops at a hash that is not the selector of two stars: what follows the
hash is not looked at, and the loop ends with `done` set. -/
theorem decode_stops_at_hash (max_chars : Int) (b : List Char) : ∀ (n : Nat) (a : List Char)
    (st : State), a.length ≤ n → trailing_stars a ≠ 2 → st.done = false →
    decode max_chars st (a ++ '#' :: b) = decode max_chars st (a ++ ['#']) ∧
    ∃ st1, decode max_chars st (a ++ ['#']) = some st1 ∧ st1.done = true := by
  intro n
  induction n with
  | zero =>
    intro a st hn _ hd
    have : a = [] := List.length_eq_zero.mp (Nat.le_zero.mp hn)
    subst this
    obtain ⟨h1, st1, h2, h3⟩ := decode_hash max_chars st b
    exact ⟨h1, st1, h2, h3 hd⟩
  | succ n ih =>
    intro a st hn ha hd
    cases a with
    | nil =>
      obtain ⟨h1, st1, h2, h3⟩ := decode_hash max_chars st b
      exact ⟨h1, st1, h2, h3 hd⟩
    | cons x s1 =>
      have hdn : ¬ st.done = true := by simp [hd]
      by_cases hx : x = '#'
      · subst hx
        obtain ⟨h1, st1, h2, h3⟩ := decode_hash max_chars st (s1 ++ '#' :: b)
        obtain ⟨h1', _⟩ := decode_hash max_chars st (s1 ++ ['#'])
        simp only [List.cons_append]
        rw [h1, h1']
        exact ⟨rfl, st1, h2, h3 hd⟩
      · have hbad : ¬ (x = '*' ∧ s1 = ['*']) := by
          rintro ⟨rfl, rfl⟩
          exact ha (by decide)
        have e1 := step_append_hash max_chars st x s1 b hx hbad
        have e2 := step_append_hash max_chars st x s1 [] hx hbad
        have hlen := step_length max_chars st x s1
        have hts := step_trailing_stars max_chars st x s1 hx ha
        simp only [List.length_cons] at hn
        simp only [List.cons_append]
        rw [decode_cons, decode_cons, if_neg hdn, if_neg hdn, e1, e2]
        simp only []
        by_cases hd1 : (step max_chars st x s1).1.done = true
        · rw [decode_done _ _ _ hd1, decode_done _ _ _ hd1]
          exact ⟨rfl, _, rfl, hd1⟩
        · exact ih _ _ (by omega) hts (by simpa using hd1)

/-- C12: a run of hashes met by the loop sets `done` and leaves the entered text,
the transcript and the mode as they were; and when the hash that follows the
characters `a` is not the selector of two stars (the stars at the end of `a` are not
exactly two), decoding `a`, the hash and any `b` gives what decoding `a` and the hash
gives, with `done` set: nothing after the hash is processed. -/
theorem hash_terminates (max_chars : Int) (st : State) (n : Nat) (rest a b : List Char)
    (hr : rest.head? ≠ some '#') (ha : trailing_stars a ≠ 2) :
    (step max_chars st '#' (List.replicate n '#' ++ rest)).2 = rest ∧
    (step max_chars st '#' (List.replicate n '#' ++ rest)).1.done = true ∧
    (step max_chars st '#' (List.replicate n '#' ++ rest)).1.entered_text = st.entered_text ∧
    (step max_chars st '#' (List.replicate n '#' ++ rest)).1.transcript = st.transcript ∧
    (step max_chars st '#' (List.replicate n '#' ++ rest)).1.mode = st.mode ∧
    decode max_chars st (a ++ '#' :: b) = decode max_chars st (a ++ ['#']) ∧
    (decode max_chars st (a ++ '#' :: b)).map State.entered_text =
      (decode max_chars st (a ++ ['#'])).map State.entered_text ∧
    (st.done = false →
      ∃ st1, decode max_chars st (a ++ ['#']) = some st1 ∧ st1.done = true) := by
  rw [step_hash max_chars st n rest hr]
  have htr : ({ st with talk_back := poke st.talk_back st.u '\x00', done := true } :
      State).transcript = st.transcript := by
    simp only [State.transcript]
    apply peek_congr
    intro j hj
    simp [poke, Nat.ne_of_lt hj]
  have hmain : decode max_chars st (a ++ '#' :: b) = decode max_chars st (a ++ ['#']) := by
    by_cases hd : st.done = true
    · rw [decode_done _ _ _ hd, decode_done _ _ _ hd]
    · exact (decode_stops_at_hash max_chars b a.length a st (Nat.le_refl _) ha
        (by simpa using hd)).1
  refine ⟨rfl, rfl, rfl, htr, rfl, hmain, by rw [hmain], ?_⟩
  intro hd
  exact (decode_stops_at_hash max_chars b a.length a st (Nat.le_refl _) ha hd).2

/-- Witness for C12: the hash after `2*3***` is not a selector. -/
theorem hash_terminates_witness :
    (step 10 (fresh blank) '#' (List.replicate 1 '#' ++ ['4'])).2 = ['4'] ∧
    (step 10 (fresh blank) '#' (List.replicate 1 '#' ++ ['4'])).1.done = true ∧
    (step 10 (fresh blank) '#' (List.replicate 1 '#' ++ ['4'])).1.entered_text =
      (fresh blank).entered_text ∧
    (step 10 (fresh blank) '#' (List.replicate 1 '#' ++ ['4'])).1.transcript =
      (fresh blank).transcript ∧
    (step 10 (fresh blank) '#' (List.replicate 1 '#' ++ ['4'])).1.mode = (fresh blank).mode ∧
    decode 10 (fresh blank) (['2', '*', '3', '*', '*', '*'] ++ '#' :: ['4', '4']) =
      decode 10 (fresh blank) (['2', '*', '3', '*', '*', '*'] ++ ['#']) ∧
    (decode 10 (fresh blank) (['2', '*', '3', '*', '*', '*'] ++ '#' :: ['4', '4'])).map
        State.entered_text =
      (decode 10 (fresh blank) (['2', '*', '3', '*', '*', '*'] ++ ['#'])).map
        State.entered_text ∧
    ((fresh blank).done = false →
      ∃ st1, decode 10 (fresh blank) (['2', '*', '3', '*', '*', '*'] ++ ['#']) = some st1 ∧
        st1.done = true) :=
  hash_terminates 10 (fresh blank) 1 ['4'] ['2', '*', '3', '*', '*', '*'] ['4', '4']
    (by decide) (by decide)

/-! ## The character limit -/

/-- C13: when the run of a digit leaves at least `max_chars` characters in the
entered text, the pass sets `done`, the characters after the run are left unconsumed,
and decoding ends with the state of that pass whatever follows the run. -/
theorem char_limit_stops (max_chars : Int) (st : State) (x : Char) (n : Nat)
    (rest rest1 : List Char) (hx : isdigit x = true) (hd : st.done = false)
    (hr : rest.head? ≠ some x) (hr1 : rest1.head? ≠ some x)
    (hlen : max_chars ≤
      ((step max_chars st x (List.replicate n x ++ rest)).1.entered_text.length : Int)) :
    (step max_chars st x (List.replicate n x ++ rest)).1.done = true ∧
    (step max_chars st x (List.replicate n x ++ rest)).2 = rest ∧
    decode max_chars st (x :: (List.replicate n x ++ rest)) =
      some (step max_chars st x (List.replicate n x ++ rest)).1 ∧
    decode max_chars st (x :: (List.replicate n x ++ rest1)) =
      decode max_chars st (x :: (List.replicate n x ++ rest)) ∧
    (decode max_chars st (x :: (List.replicate n x ++ rest1))).map State.entered_text =
      some (step max_chars st x (List.replicate n x ++ rest)).1.entered_text := by
  have e := step_digit max_chars st x n rest hx hr
  have e1 := step_digit max_chars st x n rest1 hx hr1
  have hdn : ¬ st.done = true := by simp [hd]
  rw [e] at hlen ⊢
  have hdone : (digit_run max_chars st x (1 + n)).done = true := by
    rw [digit_run_done]
    simp only [Bool.or_eq_true, decide_eq_true_eq]
    exact Or.inl hlen
  have d0 : decode max_chars st (x :: (List.replicate n x ++ rest)) =
      some (digit_run max_chars st x (1 + n)) := by
    rw [decode_cons, if_neg hdn, e]
    exact decode_done _ _ _ hdone
  have d1 : decode max_chars st (x :: (List.replicate n x ++ rest1)) =
      some (digit_run max_chars st x (1 + n)) := by
    rw [decode_cons, if_neg hdn, e1]
    exact decode_done _ _ _ hdone
  refine ⟨hdone, rfl, d0, ?_, ?_⟩
  · rw [d0, d1]
  · rw [d1]
    rfl

/-- Witness for C13: with `max_chars = 2` and the text `a`, the run `33` fills the
text; the digits `4` or `55` that follow are not consumed. -/
theorem char_limit_stops_witness :
    (step 2 { fresh blank with entered_text := ['a'] } '3'
      (List.replicate 1 '3' ++ ['4'])).1.done = true ∧
    (step 2 { fresh blank with entered_text := ['a'] } '3'
      (List.replicate 1 '3' ++ ['4'])).2 = ['4'] ∧
    decode 2 { fresh blank with entered_text := ['a'] } ('3' :: (List.replicate 1 '3' ++ ['4'])) =
      some (step 2 { fresh blank with entered_text := ['a'] } '3'
        (List.replicate 1 '3' ++ ['4'])).1 ∧
    decode 2 { fresh blank with entered_text := ['a'] }
        ('3' :: (List.replicate 1 '3' ++ ['5', '5'])) =
      decode 2 { fresh blank with entered_text := ['a'] }
        ('3' :: (List.replicate 1 '3' ++ ['4'])) ∧
    (decode 2 { fresh blank with entered_text := ['a'] }
        ('3' :: (List.replicate 1 '3' ++ ['5', '5']))).map State.entered_text =
      some (step 2 { fresh blank with entered_text := ['a'] } '3'
        (List.replicate 1 '3' ++ ['4'])).1.entered_text :=
  char_limit_stops 2 { fresh blank with entered_text := ['a'] } '3' 1 ['4'] ['5', '5']
    (by decide) rfl (by decide) (by decide) (by decide)

/-! ## The mode -/

@[simp] theorem backspace_mode (st : State) : (backspace st).mode = st.mode := by
  cases h : st.entered_text.getLast? <;> simp [backspace, h]

@[simp] theorem backspace_word_mode (st : State) : (backspace_word st).mode = st.mode := by
  simp only [backspace_word]
  split_ifs <;> rfl

@[simp] theorem read_back_mode (st : State) : (read_back st).mode = st.mode := rfl

/-- C14: a pass of the loop body leaves the mode as it was unless it is entered on
exactly two stars followed by `5`, `6`, `7` or `8`; those four set the lower case,
numeric, symbol and upper case mode and change nothing else (the entered text and the
transcript stay); `**2` and `**9` keep the mode. -/
theorem mode_frame (max_chars : Int) (st : State) (x : Char) (s1 rest : List Char) :
    ((step max_chars st x s1).1.mode = st.mode ∨
      (x = '*' ∧ ∃ c r, s1 = '*' :: c :: r ∧ c ∈ ['5', '6', '7', '8'])) ∧
    step max_chars st '*' ('*' :: '5' :: rest) =
      ({ st with mode := TEXT_ENTRY_MODE_LOWER_CASE }, rest) ∧
    step max_chars st '*' ('*' :: '6' :: rest) =
      ({ st with mode := TEXT_ENTRY_MODE_NUMERIC }, rest) ∧
    step max_chars st '*' ('*' :: '7' :: rest) =
      ({ st with mode := TEXT_ENTRY_MODE_SYMBOL }, rest) ∧
    step max_chars st '*' ('*' :: '8' :: rest) =
      ({ st with mode := TEXT_ENTRY_MODE_UPPER_CASE }, rest) ∧
    (step max_chars st '*' ('*' :: '2' :: rest)).1.mode = st.mode ∧
    (step max_chars st '*' ('*' :: '9' :: rest)).1.mode = st.mode := by
  have hsel : ∀ c : Char, c ≠ '*' →
      step max_chars st '*' ('*' :: c :: rest) = selector st (c :: rest) := by
    intro c hc
    exact step_star_two max_chars st (c :: rest) (by simpa using hc)
  refine ⟨?_, ?_, ?_, ?_, ?_, ?_, ?_⟩
  · obtain ⟨h1, h2⟩ := count_hits_split x s1 1
    simp only [step]
    split_ifs with hs hh
    · -- two stars
      cases hr : (count_hits x s1 1).2 with
      | nil => left; simp [selector]
      | cons c r =>
        rw [hh, hr, hs] at h2
        have hs1 : s1 = '*' :: c :: r := by simpa using h2
        simp only [selector]
        split_ifs with c2 c5 c6 c7 c8 c9 ch
        · left; simp
        · right; exact ⟨hs, c, r, hs1, by simp [c5]⟩
        · right; exact ⟨hs, c, r, hs1, by simp [c6]⟩
        · right; exact ⟨hs, c, r, hs1, by simp [c7]⟩
        · right; exact ⟨hs, c, r, hs1, by simp [c8]⟩
        · left; simp
        · left; simp
        · left; rfl
    · left; rfl
    · left; rfl
    · left; exact digit_run_mode _ _ _ _
    · left; rfl
  · rw [hsel '5' (by decide)]; simp [selector]
  · rw [hsel '6' (by decide)]; simp [selector]
  · rw [hsel '7' (by decide)]; simp [selector]
  · rw [hsel '8' (by decide)]; simp [selector]
  · rw [hsel '2' (by decide)]; simp [selector]
  · rw [hsel '9' (by decide)]; simp [selector]

/-! ## The transcript of an entered character -/

theorem text_entry_not_space (st : State) (c : Char) (hc : c ≠ ' ') :
    text_entry st c = sprintf st (spoken c) := by
  simp only [text_entry, if_neg hc]

/-- The transcript after the run of a digit is the transcript after the branch of the
mode: the statements after the `switch` do not touch it. -/
theorem digit_run_transcript (max_chars : Int) (st : State) (x : Char) (hits : Nat) :
    (digit_run max_chars st x hits).transcript =
      (match st.mode with
        | TEXT_ENTRY_MODE_LOWER_CASE =>
          text_entry st (resolve TEXT_ENTRY_MODE_LOWER_CASE x hits)
        | TEXT_ENTRY_MODE_UPPER_CASE =>
          text_entry st (resolve TEXT_ENTRY_MODE_UPPER_CASE x hits)
        | TEXT_ENTRY_MODE_NUMERIC =>
          sprintf (numeric_loop x (hits - 1) st) [x, ',', ' ']
        | TEXT_ENTRY_MODE_SYMBOL =>
          sprintf st [resolve TEXT_ENTRY_MODE_SYMBOL x hits, ',', ' ']).transcript := by
  simp only [digit_run]
  cases st.mode <;> simp only []
  · generalize text_entry st (resolve TEXT_ENTRY_MODE_LOWER_CASE x hits) = te
    split_ifs <;> rfl
  · generalize text_entry st (resolve TEXT_ENTRY_MODE_UPPER_CASE x hits) = te
    split_ifs <;> rfl
  · generalize numeric_loop x (hits - 1) st = nl
    split_ifs <;> rfl
  · generalize resolve TEXT_ENTRY_MODE_SYMBOL x hits = c
    split_ifs <;> rfl

/-- In lower and upper case mode a character other than a space is spoken with the
words of `char_to_text`, or as itself when there are none. -/
theorem digit_run_transcript_alpha (max_chars : Int) (st : State) (x : Char) (hits : Nat)
    (hm : st.mode = TEXT_ENTRY_MODE_LOWER_CASE ∨ st.mode = TEXT_ENTRY_MODE_UPPER_CASE)
    (hc : resolve st.mode x hits ≠ ' ') :
    (digit_run max_chars st x hits).transcript =
      st.transcript ++ spoken (resolve st.mode x hits) := by
  rw [digit_run_transcript]
  rcases hm with hm | hm
  · rw [hm] at hc ⊢
    simp only []
    rw [text_entry_not_space _ _ hc, sprintf_transcript]
  · rw [hm] at hc ⊢
    simp only []
    rw [text_entry_not_space _ _ hc, sprintf_transcript]

/-- In symbol mode every character is spoken as itself. -/
theorem digit_run_transcript_symbol (max_chars : Int) (st : State) (x : Char) (hits : Nat)
    (hm : st.mode = TEXT_ENTRY_MODE_SYMBOL) :
    (digit_run max_chars st x hits).transcript =
      st.transcript ++ [resolve st.mode x hits, ',', ' '] := by
  rw [digit_run_transcript, hm]
  simp only []
  rw [sprintf_transcript]

theorem read_back_transcript (st : State) : (read_back st).transcript = st.entered_text := by
  simp only [read_back]
  rw [sprintf_transcript]
  simp [State.transcript, peek]

/-! ## Read back -/

theorem transcript_below (a b : State) (hu : a.u = b.u)
    (h : ∀ j, j < b.u → a.talk_back j = b.talk_back j) : a.transcript = b.transcript := by
  simp only [State.transcript, hu]
  exact peek_congr _ _ _ h

/-- A hash at the end of the input leaves the transcript and the entered text as they
are (it stores a NUL at the write pointer, above the transcript). -/
theorem decode_hash_keeps (max_chars : Int) (st : State) :
    ∃ st1, decode max_chars st ['#'] = some st1 ∧ st1.transcript = st.transcript ∧
      st1.entered_text = st.entered_text := by
  by_cases hd : st.done = true
  · exact ⟨st, decode_done _ _ _ hd, rfl, rfl⟩
  · have e := step_hash max_chars st 0 [] (by simp)
    simp only [List.replicate_zero, List.nil_append] at e
    rw [decode_cons, if_neg hd, e]
    refine ⟨_, rfl, ?_, rfl⟩
    refine transcript_below _ _ ?_ ?_
    · rfl
    · intro j hj
      simp [poke, Nat.ne_of_lt hj]

/-- Counterexample for C15: on a live channel the hash of `**#` ends the batch, and the
next batch starts the transcript afresh.  The keys `44*444**#2#` enter `hia`; the
transcript after the read back was `hi`, and after the `a` it is `a, `, not `hia, `. -/
theorem read_back_next_batch_restarts :
    (get_input_text blank
        (dtmf_frames ['4', '4', '*', '4', '4', '4', '*', '*', '#', '2', '#']) [] 20 60).map
      (fun o => (o.st.entered_text, o.st.transcript)) =
      some (['h', 'i', 'a'], ['a', ',', ' ']) ∧
    ¬ ((get_input_text blank
        (dtmf_frames ['4', '4', '*', '4', '4', '4', '*', '*', '#', '2', '#']) [] 20 60).map
      (fun o => o.st.transcript) = some (['h', 'i'] ++ ['a'] ++ [',', ' '])) := by
  decide

/-- C15 (amended): `**#` is consumed whole and makes the transcript equal to the
entered text; the entered text, the mode and `done` stay as they were.  In lower or
upper case mode, a character `c` other than a space that the next pass of the same
batch enters extends that transcript by the words of `char_to_text` for `c` when there
are some and by `c` itself otherwise, then `, `; so does the batch `**#`, a digit run
and the closing `#`.  Such a batch exists when `**#` lies in the initial digits: the
initial digits `44*444**#2` followed by the key `#` leave the transcript `hia, `. -/
theorem read_back_step (max_chars : Int) (st : State) (rest rest1 : List Char) (x : Char)
    (n : Nat) :
    (step max_chars st '*' ('*' :: '#' :: rest)).2 = rest ∧
    (step max_chars st '*' ('*' :: '#' :: rest)).1.transcript = st.entered_text ∧
    (step max_chars st '*' ('*' :: '#' :: rest)).1.entered_text = st.entered_text ∧
    (step max_chars st '*' ('*' :: '#' :: rest)).1.mode = st.mode ∧
    (step max_chars st '*' ('*' :: '#' :: rest)).1.done = st.done ∧
    (st.mode = TEXT_ENTRY_MODE_LOWER_CASE ∨ st.mode = TEXT_ENTRY_MODE_UPPER_CASE →
      isdigit x = true → rest1.head? ≠ some x → resolve st.mode x (1 + n) ≠ ' ' →
      (step max_chars st '*' ('*' :: '#' :: x :: (List.replicate n x ++ rest1))).2 =
        x :: (List.replicate n x ++ rest1) ∧
      (step max_chars
        (step max_chars st '*' ('*' :: '#' :: x :: (List.replicate n x ++ rest1))).1 x
        (List.replicate n x ++ rest1)).2 = rest1 ∧
      (step max_chars
        (step max_chars st '*' ('*' :: '#' :: x :: (List.replicate n x ++ rest1))).1 x
        (List.replicate n x ++ rest1)).1.transcript =
        st.entered_text ++
          (match char_to_text (resolve st.mode x (1 + n)) with
            | some r => r
            | none => [resolve st.mode x (1 + n)]) ++ [',', ' '] ∧
      (st.done = false →
        ∃ st1, process_batch max_chars st
            ('*' :: '*' :: '#' :: x :: (List.replicate n x ++ ['#'])) = some st1 ∧
          st1.entered_text = st.entered_text ++ [resolve st.mode x (1 + n)] ∧
          st1.transcript =
            st.entered_text ++
              (match char_to_text (resolve st.mode x (1 + n)) with
                | some r => r
                | none => [resolve st.mode x (1 + n)]) ++ [',', ' '])) ∧
    (get_input_text blank (dtmf_frames ['#'])
        ['4', '4', '*', '4', '4', '4', '*', '*', '#', '2'] 20 60).map
      (fun o => (o.st.entered_text, o.st.transcript)) =
      some (['h', 'i', 'a'], ['h', 'i', 'a', ',', ' ']) := by
  have hs : ∀ (st : State) (rest : List Char),
      step max_chars st '*' ('*' :: '#' :: rest) = (read_back st, rest) := by
    intro st rest
    rw [step_star_two max_chars st ('#' :: rest) (by simp)]
    simp [selector]
  have hsp : ∀ c : Char, spoken c =
      (match char_to_text c with
        | some r => r
        | none => [c]) ++ [',', ' '] := by
    intro c
    simp only [spoken]
    cases char_to_text c <;> simp
  -- the next pass of the same batch, from any state
  have hnext : ∀ st : State,
      st.mode = TEXT_ENTRY_MODE_LOWER_CASE ∨ st.mode = TEXT_ENTRY_MODE_UPPER_CASE →
      resolve st.mode x (1 + n) ≠ ' ' →
      (digit_run max_chars (read_back st) x (1 + n)).transcript =
        st.entered_text ++
          (match char_to_text (resolve st.mode x (1 + n)) with
            | some r => r
            | none => [resolve st.mode x (1 + n)]) ++ [',', ' '] := by
    intro st hm hc
    rw [digit_run_transcript_alpha max_chars (read_back st) x (1 + n) hm hc,
      read_back_transcript, read_back_mode, hsp, List.append_assoc]
  refine ⟨by rw [hs], by rw [hs]; exact read_back_transcript st, by rw [hs]; rfl,
    by rw [hs]; rfl, by rw [hs]; rfl, ?_, by decide⟩
  intro hm hx hr hc
  have hd2 := step_digit max_chars (read_back st) x n rest1 hx hr
  have h1 : (step max_chars st '*' ('*' :: '#' :: x :: (List.replicate n x ++ rest1))).2 =
      x :: (List.replicate n x ++ rest1) := by rw [hs]
  have h2 : step max_chars
      (step max_chars st '*' ('*' :: '#' :: x :: (List.replicate n x ++ rest1))).1 x
      (List.replicate n x ++ rest1) = (digit_run max_chars (read_back st) x (1 + n), rest1) := by
    rw [hs]
    exact hd2
  refine ⟨h1, by rw [h2], by rw [h2]; exact hnext st hm hc, ?_⟩
  intro hd
  -- the batch made of the read back, the run and the closing hash
  have hm0 : ({ st with u := 0, ul := 0 } : State).mode = TEXT_ENTRY_MODE_LOWER_CASE ∨
      ({ st with u := 0, ul := 0 } : State).mode = TEXT_ENTRY_MODE_UPPER_CASE := hm
  have hnum : (read_back { st with u := 0, ul := 0 }).mode ≠ TEXT_ENTRY_MODE_NUMERIC := by
    show st.mode ≠ _
    rcases hm with h | h <;> rw [h] <;> decide
  have t2 := hnext { st with u := 0, ul := 0 } hm0 hc
  have e2 := digit_run_entered_text max_chars (read_back { st with u := 0, ul := 0 }) x (1 + n) hnum
  have q2 := step_digit max_chars (read_back { st with u := 0, ul := 0 }) x n ['#'] hx
    (by simpa using Ne.symm (isdigit_ne_hash x hx))
  generalize digit_run max_chars (read_back { st with u := 0, ul := 0 }) x (1 + n) = s2
    at t2 e2 q2
  obtain ⟨st1, k1, k2, k3⟩ := decode_hash_keeps max_chars s2
  have hdec : decode max_chars { st with u := 0, ul := 0 }
      ('*' :: '*' :: '#' :: x :: (List.replicate n x ++ ['#'])) = some st1 := by
    rw [decode_cons, if_neg (by simp [hd]), hs]
    simp only []
    rw [decode_cons, if_neg (by simp [read_back, sprintf, hd]), q2]
    exact k1
  refine ⟨{ st1 with talk_back := poke st1.talk_back st1.u '\x00' }, ?_, ?_, ?_⟩
  · simp only [process_batch, hdec, Option.map_some']
  · show st1.entered_text = _
    rw [k3, e2]
    rfl
  · have : ({ st1 with talk_back := poke st1.talk_back st1.u '\x00' } : State).transcript =
        st1.transcript := by
      refine transcript_below _ _ ?_ ?_
      · rfl
      · intro j hj
        simp [poke, Nat.ne_of_lt hj]
    rw [this, k2, t2]

/-- Witness for C15: after the text `hi` in lower case mode, `**#`, one press of `2`
and the closing `#`. -/
theorem read_back_step_witness :
    (step 20 { fresh blank with entered_text := ['h', 'i'] } '*' ('*' :: '#' :: [])).1.transcript =
      ['h', 'i'] ∧
    (step 20
      (step 20 { fresh blank with entered_text := ['h', 'i'] } '*'
        ('*' :: '#' :: '2' :: (List.replicate 0 '2' ++ ['#']))).1 '2'
      (List.replicate 0 '2' ++ ['#'])).1.transcript =
      ['h', 'i'] ++
        (match char_to_text (resolve TEXT_ENTRY_MODE_LOWER_CASE '2' (1 + 0)) with
          | some r => r
          | none => [resolve TEXT_ENTRY_MODE_LOWER_CASE '2' (1 + 0)]) ++ [',', ' '] ∧
    (∃ st1, process_batch 20 { fresh blank with entered_text := ['h', 'i'] }
        ('*' :: '*' :: '#' :: '2' :: (List.replicate 0 '2' ++ ['#'])) = some st1 ∧
      st1.entered_text = ['h', 'i'] ++ [resolve TEXT_ENTRY_MODE_LOWER_CASE '2' (1 + 0)] ∧
      st1.transcript =
        ['h', 'i'] ++
          (match char_to_text (resolve TEXT_ENTRY_MODE_LOWER_CASE '2' (1 + 0)) with
            | some r => r
            | none => [resolve TEXT_ENTRY_MODE_LOWER_CASE '2' (1 + 0)]) ++ [',', ' ']) :=
  ⟨(read_back_step 20 { fresh blank with entered_text := ['h', 'i'] } [] ['#'] '2' 0).2.1,
   ((read_back_step 20 { fresh blank with entered_text := ['h', 'i'] } [] ['#'] '2' 0).2.2.2.2.2.1
     (Or.inl rfl) (by decide) (by decide) (by decide)).2.2.1,
   ((read_back_step 20 { fresh blank with entered_text := ['h', 'i'] } [] ['#'] '2' 0).2.2.2.2.2.1
     (Or.inl rfl) (by decide) (by decide) (by decide)).2.2.2 rfl⟩

/-! ## The time budget -/

/-- The batch `**#`: it reads back and does not set `done` (its hash is the selector
of the two stars); the entered text and the mode stay. -/
theorem process_batch_read_back (max_chars : Int) (st : State) (hd : st.done = false) :
    ∃ st1, process_batch max_chars st ['*', '*', '#'] = some st1 ∧
      st1.entered_text = st.entered_text ∧ st1.done = false ∧ st1.mode = st.mode := by
  have q : step max_chars { st with u := 0, ul := 0 } '*' ['*', '#'] =
      (read_back { st with u := 0, ul := 0 }, []) := by
    rw [step_star_two max_chars _ ['#'] (by decide)]
    simp [selector]
  have e : decode max_chars { st with u := 0, ul := 0 } ['*', '*', '#'] =
      some (read_back { st with u := 0, ul := 0 }) := by
    rw [decode_cons, if_neg (by simp [hd]), q]
    rfl
  have e2 : process_batch max_chars st ['*', '*', '#'] =
      some { read_back { st with u := 0, ul := 0 } with
        talk_back := poke (read_back { st with u := 0, ul := 0 }).talk_back
          (read_back { st with u := 0, ul := 0 }).u '\x00' } := by
    simp only [process_batch, e, Option.map_some']
  exact ⟨_, e2, rfl, hd, rfl⟩

/-- With a positive budget the outer loop goes through any number of batches `**#` and
then continues on the frames that follow with the same budget: nothing reduces it. -/
theorem session_loop_batches (max_chars total_timer res : Int) (fs : List Frame)
    (h : 0 < total_timer) :
    ∀ (n : Nat) (st : State), st.done = false →
      ∃ st1, st1.done = false ∧ st1.entered_text = st.entered_text ∧ st1.mode = st.mode ∧
        session_loop max_chars total_timer
            (dtmf_frames (List.replicate n ['*', '*', '#']).flatten ++ fs) st [] res =
          session_loop max_chars total_timer fs st1 [] res := by
  intro n
  induction n with
  | zero =>
    intro st hd
    exact ⟨st, hd, rfl, rfl, by simp [dtmf_frames]⟩
  | succ n ih =>
    intro st hd
    obtain ⟨st1, p1, p2, p3, p4⟩ := process_batch_read_back max_chars st hd
    obtain ⟨st2, o1, o2, o3, o4⟩ := ih st1 p3
    refine ⟨st2, o1, by rw [o2, p2], by rw [o3, p4], ?_⟩
    have ef : dtmf_frames (List.replicate (n + 1) ['*', '*', '#']).flatten ++ fs =
        Frame.dtmf '*' :: Frame.dtmf '*' :: Frame.dtmf '#' ::
          (dtmf_frames (List.replicate n ['*', '*', '#']).flatten ++ fs) := by
      simp [dtmf_frames, List.replicate_succ]
    have ht : ¬ (total_timer ≤ 0) := by omega
    rw [ef, ← o4]
    simp [session_loop, hd, p1, p3, ht]

theorem int_wrap_in_range (z : Int) (h1 : -2147483648 ≤ z) (h2 : z < 2147483648) :
    int_wrap z = z := by
  unfold int_wrap
  omega

/-- C16 (defect of the code): the time budget is never reduced.  For every `max_time`
from 1 to 268435 (the values for which `8000*max_time` is a positive `int`) and every
`n`, a session that gets the batch `**#` `n` times goes through all `n` batches and is
then still in its loop with the whole budget `8000*max_time`, `done` not set; when the
channel delivers nothing more it leaves the loop with `res` still -1.  No number of
batches exhausts the budget. -/
theorem time_budget_is_not_reduced (mem : Nat → Char) (n : Nat) (max_chars max_time : Int)
    (fs : List Frame) (h : 0 < max_time) (hb : max_time ≤ 268435) :
    (∃ st1, st1.done = false ∧ st1.entered_text = [] ∧
      get_input_text mem (dtmf_frames (List.replicate n ['*', '*', '#']).flatten ++ fs) []
          max_chars max_time =
        session_loop max_chars (8000 * max_time) fs st1 [] (-1)) ∧
    (∃ o, get_input_text mem (dtmf_frames (List.replicate n ['*', '*', '#']).flatten) []
          max_chars max_time = some o ∧
      o.st.entered_text = [] ∧ o.st.done = false ∧ o.res = -1) := by
  have hw : int_wrap (8000 * max_time) = 8000 * max_time :=
    int_wrap_in_range _ (by omega) (by omega)
  have ht : (0 : Int) < 8000 * max_time := by omega
  constructor
  · obtain ⟨st1, o1, o2, _, o4⟩ :=
      session_loop_batches max_chars (8000 * max_time) (-1) fs ht n (fresh mem) rfl
    refine ⟨st1, o1, by rw [o2]; rfl, ?_⟩
    simp only [get_input_text, hw]
    exact o4
  · obtain ⟨st1, o1, o2, _, o4⟩ :=
      session_loop_batches max_chars (8000 * max_time) (-1) [] ht n (fresh mem) rfl
    refine ⟨⟨st1, -1⟩, ?_, by rw [o2]; rfl, o1, rfl⟩
    simp only [get_input_text, hw]
    rw [List.append_nil] at o4
    rw [o4]
    rfl

/-- Witness for C16: `max_time = 1`, five batches, then a hangup. -/
theorem time_budget_is_not_reduced_witness :
    (∃ st1, st1.done = false ∧ st1.entered_text = [] ∧
      get_input_text blank
          (dtmf_frames (List.replicate 5 ['*', '*', '#']).flatten ++ [Frame.null]) [] 10 1 =
        session_loop 10 (8000 * 1) [Frame.null] st1 [] (-1)) ∧
    (∃ o, get_input_text blank (dtmf_frames (List.replicate 5 ['*', '*', '#']).flatten) []
          10 1 = some o ∧
      o.st.entered_text = [] ∧ o.st.done = false ∧ o.res = -1) :=
  time_budget_is_not_reduced blank 5 10 1 [Frame.null] (by decide) (by decide)

/-- Where the `int` product `8000*max_time` overflows the budget is not positive: with
`max_time = 268436` the session stops after its first batch, `done` not set. -/
theorem time_budget_wraps :
    int_wrap (8000 * 268436) = -2147479296 ∧
    (get_input_text blank
        (dtmf_frames ['2', '*', '*', '#', '2', '*', '*', '#']) [] 10 268436).map
      (fun o => (o.st.entered_text, o.st.done, o.res)) = some (['a'], false, 0) := by
  decide

/-! ## The transcript in symbol mode -/

theorem press_mem (q : List Char) (hits : Nat) (hq : q ≠ []) : press q hits ∈ q := by
  have hpos : 0 < q.length := List.length_pos.mpr hq
  have hlt : (hits - 1) % q.length < q.length := Nat.mod_lt _ hpos
  simp only [press, List.getD_eq_getElem?_getD, List.getElem?_eq_getElem hlt, Option.getD_some]
  exact List.getElem_mem _

/-- The only character of `symbol_presses` that `char_to_text` has words for is `@`. -/
theorem symbol_words_only_at (x : Char) (hits : Nat) (hx : isdigit x = true)
    (h : resolve TEXT_ENTRY_MODE_SYMBOL x hits ≠ '@') :
    char_to_text (resolve TEXT_ENTRY_MODE_SYMBOL x hits) = none := by
  have hall : ∀ c ∈ symbol_presses (digit_index x), c = '@' ∨ char_to_text c = none := by
    rcases isdigit_cases x hx with h | h | h | h | h | h | h | h | h | h <;> subst h <;> decide
  have hne : symbol_presses (digit_index x) ≠ [] := by
    rcases isdigit_cases x hx with h | h | h | h | h | h | h | h | h | h <;> subst h <;> decide
  rcases hall _ (press_mem _ hits hne) with h1 | h1
  · exact absurd h1 h
  · exact h1

/-- C17 (defect of the code): in symbol mode the transcript gets the character itself
even when `char_to_text` has words for it.  One press of `2` in symbol mode enters `@`
and appends `@, ` to the transcript, not `"at" sign, `; the keys `**72#` leave the
transcript `@, `.  (The branch of the lower and upper case modes does use
`char_to_text`, and so does the backspace when it removes the `@`.) -/
theorem symbol_mode_skips_char_to_text :
    resolve TEXT_ENTRY_MODE_SYMBOL '2' 1 = '@' ∧
    char_to_text '@' = some ['\x22', 'a', 't', '\x22', ' ', 's', 'i', 'g', 'n'] ∧
    (step 10 { fresh blank with mode := TEXT_ENTRY_MODE_SYMBOL } '2' []).1.transcript =
      ['@', ',', ' '] ∧
    (get_input_text blank (dtmf_frames ['*', '*', '7', '2', '#']) [] 10 60).map
      (fun o => (o.st.entered_text, o.st.transcript)) = some (['@'], ['@', ',', ' ']) ∧
    (step 10 { fresh blank with mode := TEXT_ENTRY_MODE_LOWER_CASE } '1' []).1.transcript =
      ['e', 'x', 'c', 'l', 'a', 'm', 'a', 't', 'i', 'o', 'n', ' ', 'm', 'a', 'r', 'k', ',', ' '] ∧
    (step 10 { fresh blank with mode := TEXT_ENTRY_MODE_SYMBOL, entered_text := ['@'] } '*'
      ['*', '2']).1.transcript =
      ['d', 'e', 'l', 'e', 't', 'e', ' ', '\x22', 'a', 't', '\x22', ' ', 's', 'i', 'g', 'n',
        ',', ' '] := by
  decide

/-- Apart from the `@` of symbol mode, a character other than a space that a digit run
enters in lower case, upper case or symbol mode is spoken with the words of
`char_to_text`, or as itself when there are none, followed by `, `. -/
theorem inserted_char_transcript (max_chars : Int) (st : State) (x : Char) (hits : Nat)
    (hx : isdigit x = true) (hm : st.mode ≠ TEXT_ENTRY_MODE_NUMERIC)
    (hc : resolve st.mode x hits ≠ ' ')
    (hat : ¬ (st.mode = TEXT_ENTRY_MODE_SYMBOL ∧ resolve st.mode x hits = '@')) :
    (digit_run max_chars st x hits).transcript =
      st.transcript ++ spoken (resolve st.mode x hits) := by
  cases hmode : st.mode with
  | TEXT_ENTRY_MODE_NUMERIC => exact absurd hmode hm
  | TEXT_ENTRY_MODE_LOWER_CASE =>
    rw [← hmode]; exact digit_run_transcript_alpha _ _ _ _ (Or.inl hmode) hc
  | TEXT_ENTRY_MODE_UPPER_CASE =>
    rw [← hmode]; exact digit_run_transcript_alpha _ _ _ _ (Or.inr hmode) hc
  | TEXT_ENTRY_MODE_SYMBOL =>
    have h1 : resolve TEXT_ENTRY_MODE_SYMBOL x hits ≠ '@' := by
      intro h; exact hat ⟨hmode, by rw [hmode]; exact h⟩
    have h2 := symbol_words_only_at x hits hx h1
    rw [digit_run_transcript_symbol _ _ _ _ hmode, hmode]
    simp [spoken, h2]

/-! ## The end of a word -/

theorem rdropWhile_append_rtakeWhile (p : Char → Bool) (l : List Char) :
    l.rdropWhile p ++ l.rtakeWhile p = l := by
  have h : (l.reverse.takeWhile p ++ l.reverse.dropWhile p).reverse = l := by
    rw [List.takeWhile_append_dropWhile, List.reverse_reverse]
  rw [List.reverse_append] at h
  exact h

/-- What the branch of the lower and upper case modes stores when a space ends a
word: from the offset `ul`, the space before the trailing word when the text has one,
the trailing word, and the space entered. -/
theorem text_entry_word_boundary (st : State) (l : List Char) (c : Char)
    (he : st.entered_text = l ++ [c]) (hc : c ≠ ' ') :
    (text_entry st ' ').transcript =
      peek st.talk_back st.ul ++
        (if st.entered_text.rdropWhile (fun a => a != ' ') = [] then [] else [' ']) ++
        trailing_word st.entered_text ++ [' '] := by
  have hlen : st.entered_text.length = l.length + 1 := by rw [he]; simp
  have hcond : 0 < st.entered_text.length ∧
      (st.entered_text ++ [' ']).getD (st.entered_text.length - 1) '\x00' ≠ ' ' := by
    refine ⟨by omega, ?_⟩
    rw [he]
    have : (l ++ [c]).length - 1 = l.length := by simp
    rw [this, List.append_assoc, List.getD_eq_getElem?_getD,
      List.getElem?_append_right (Nat.le_refl _)]
    simpa using hc
  have hv1 : back_while (fun a => a == ' ') (st.entered_text ++ [' ']) st.entered_text.length =
      st.entered_text.length - 1 := by
    have h := back_while_eq (fun a => a == ' ') (st.entered_text ++ [' ']) []
    have e1 : (st.entered_text ++ [' ']).length - 1 = st.entered_text.length := by simp
    rw [List.append_nil, e1, List.rdropWhile_concat_pos _ _ _ (by simp)] at h
    rw [h, he, List.rdropWhile_concat_neg _ _ _ (by simpa using hc)]
  have hv2 : back_while (fun a => a != ' ') (st.entered_text ++ [' '])
      (st.entered_text.length - 1) =
      (st.entered_text.rdropWhile (fun a => a != ' ')).length - 1 :=
    back_while_eq (fun a => a != ' ') st.entered_text [' ']
  have hte : (text_entry st ' ').transcript =
      peek st.talk_back st.ul ++ (st.entered_text ++ [' ']).drop
        ((st.entered_text.rdropWhile (fun a => a != ' ')).length - 1) := by
    simp only [text_entry, if_true, if_pos hcond, hv1, hv2, State.transcript]
    have h := peek_store st.talk_back st.ul ((st.entered_text ++ [' ']).drop
        ((st.entered_text.rdropWhile (fun a => a != ' ')).length - 1)) []
    rw [List.append_nil] at h
    exact h
  rw [hte]
  have hsplit := rdropWhile_append_rtakeWhile (fun a => a != ' ') st.entered_text
  have hlast : ∀ h : st.entered_text.rdropWhile (fun a => a != ' ') ≠ [],
      (st.entered_text.rdropWhile (fun a => a != ' ')).getLast h = ' ' :=
    fun h => rdropWhile_getLast_space _ h
  simp only [trailing_word]
  generalize st.entered_text.rdropWhile (fun a => a != ' ') = p at hsplit hlast
  generalize st.entered_text.rtakeWhile (fun a => a != ' ') = w at hsplit
  rw [← hsplit]
  by_cases hp : p = []
  · subst hp
    simp
  · rw [if_neg hp]
    have hl := hlast hp
    obtain ⟨p1, rfl⟩ : ∃ p1, p = p1 ++ [' '] := by
      refine ⟨p.dropLast, ?_⟩
      rw [← hl]
      exact (List.dropLast_append_getLast hp).symm
    have e1 : (p1 ++ [' ']).length - 1 = p1.length := by simp
    rw [e1]
    simp [List.append_assoc]

/-- C18 (defect of the code): the text stored at the end of a word starts with the
space before the word.  The keys `44*444*0*999*666*0#` enter `hi yo ` and leave the
transcript `hi  yo `, with two spaces after `hi`: at the second boundary the transcript
of the first boundary, `hi `, is followed by ` yo `, not by `yo `.  (The first word,
which no space precedes, is stored as the claim says: `44*444*0#` leaves `hi `.) -/
theorem word_boundary_repeats_space :
    (get_input_text blank
        (dtmf_frames ['4', '4', '*', '4', '4', '4', '*', '0', '*', '9', '9', '9', '*',
          '6', '6', '6', '*', '0', '#']) [] 20 60).map
      (fun o => (o.st.entered_text, o.st.transcript)) =
      some (['h', 'i', ' ', 'y', 'o', ' '], ['h', 'i', ' ', ' ', 'y', 'o', ' ']) ∧
    (get_input_text blank (dtmf_frames ['4', '4', '*', '4', '4', '4', '*', '0', '#']) [] 20 60).map
      (fun o => (o.st.entered_text, o.st.transcript)) =
      some (['h', 'i', ' '], ['h', 'i', ' ']) ∧
    trailing_word ['h', 'i', ' ', 'y', 'o'] = ['y', 'o'] := by
  decide

/-- The transcript after a digit run that ends a word in lower or upper case mode:
the bytes below the offset `ul`, the space before the trailing word when the text has
one, the trailing word, and the space entered. -/
theorem word_boundary_transcript (max_chars : Int) (st : State) (x : Char) (hits : Nat)
    (l : List Char) (c : Char)
    (hm : st.mode = TEXT_ENTRY_MODE_LOWER_CASE ∨ st.mode = TEXT_ENTRY_MODE_UPPER_CASE)
    (hr : resolve st.mode x hits = ' ') (he : st.entered_text = l ++ [c]) (hc : c ≠ ' ') :
    (digit_run max_chars st x hits).transcript =
      peek st.talk_back st.ul ++
        (if st.entered_text.rdropWhile (fun a => a != ' ') = [] then [] else [' ']) ++
        trailing_word st.entered_text ++ [' '] := by
  rw [digit_run_transcript]
  rcases hm with hm | hm
  · rw [hm] at hr ⊢
    simp only []
    rw [hr]
    exact text_entry_word_boundary st l c he hc
  · rw [hm] at hr ⊢
    simp only []
    rw [hr]
    exact text_entry_word_boundary st l c he hc

/-! ## The runs that are scanned -/

theorem scan_runs_fuel (max_chars : Int) : ∀ (n m : Nat) (st : State) (s : List Char),
    s.length ≤ n → s.length ≤ m → scan_runs max_chars n st s = scan_runs max_chars m st s := by
  intro n
  induction n with
  | zero =>
    intro m st s hn _
    have : s = [] := List.length_eq_zero.mp (Nat.le_zero.mp hn)
    subst this
    cases m <;> rfl
  | succ n ih =>
    intro m st s hn hm
    cases s with
    | nil => cases m <;> rfl
    | cons x s1 =>
      cases m with
      | zero => simp at hm
      | succ m =>
        simp only [scan_runs]
        split_ifs
        · rfl
        · have h := step_length max_chars st x s1
          simp only [List.length_cons] at hn hm
          rw [ih m _ _ (by omega) (by omega)]

@[simp] theorem runs_scanned_nil (max_chars : Int) (st : State) :
    runs_scanned max_chars st [] = [] := rfl

/-- One pass of the loop: every pass made by `decode` is recorded, with its run. -/
theorem runs_scanned_cons (max_chars : Int) (st : State) (x : Char) (s1 : List Char) :
    runs_scanned max_chars st (x :: s1) =
      if st.done then []
      else (x, (count_hits x s1 1).1) ::
        runs_scanned max_chars (step max_chars st x s1).1 (step max_chars st x s1).2 := by
  simp only [runs_scanned, List.length_cons, scan_runs]
  split_ifs
  · rfl
  · rw [scan_runs_fuel max_chars _ _ _ _ (step_length max_chars st x s1) (Nat.le_refl _)]

theorem step_rest (max_chars : Int) (st : State) (x : Char) (s1 : List Char) (hx : x ≠ '*') :
    (step max_chars st x s1).2 = (count_hits x s1 1).2 := by
  simp only [step, if_neg hx]
  split_ifs <;> rfl

@[simp] theorem expand_nil : expand [] = [] := rfl

@[simp] theorem expand_cons (r : Char × Nat) (rs : List (Char × Nat)) :
    expand (r :: rs) = List.replicate r.2 r.1 ++ expand rs := by
  simp [expand]

/-- The runs scanned on an input without a star: every count is positive, adjacent
runs have different characters, the first run starts with the first character, and
the runs expand to the part of the input before some unconsumed characters `rest`,
which do not start with the character of the last run and are empty when decoding ends
with `done` not set. -/
theorem runs_scanned_props (max_chars : Int) : ∀ (n : Nat) (s : List Char) (st : State),
    s.length ≤ n → (∀ c ∈ s, c ≠ '*') →
    (∀ r ∈ runs_scanned max_chars st s, 1 ≤ r.2) ∧
    List.Chain' (fun a b : Char × Nat => a.1 ≠ b.1) (runs_scanned max_chars st s) ∧
    (∀ r ∈ (runs_scanned max_chars st s).head?, s.head? = some r.1) ∧
    ∃ rest, s = expand (runs_scanned max_chars st s) ++ rest ∧
      (∀ r ∈ (runs_scanned max_chars st s).getLast?, rest.head? ≠ some r.1) ∧
      (∀ st1, decode max_chars st s = some st1 → st1.done = false → rest = []) := by
  intro n
  induction n with
  | zero =>
    intro s st hn _
    have : s = [] := List.length_eq_zero.mp (Nat.le_zero.mp hn)
    subst this
    simp
  | succ n ih =>
    intro s st hn hstar
    cases s with
    | nil => simp
    | cons x s1 =>
      by_cases hd : st.done = true
      · rw [runs_scanned_cons, if_pos hd, decode_done _ _ _ hd]
        refine ⟨by simp, by simp, by simp, x :: s1, by simp, by simp, ?_⟩
        intro st1 h1 h2
        have : st1 = st := by simpa using h1.symm
        rw [this, hd] at h2
        exact absurd h2 (by decide)
      · have hx : x ≠ '*' := hstar x (by simp)
        obtain ⟨hc1, hc2⟩ := count_hits_split x s1 1
        have hhead := count_hits_head x s1 1
        have hrest := step_rest max_chars st x s1 hx
        have hlen := count_hits_length x s1 1
        simp only [List.length_cons] at hn
        have hstar' : ∀ c ∈ (count_hits x s1 1).2, c ≠ '*' := by
          intro c hc
          apply hstar c
          rw [hc2]
          simp [hc]
        obtain ⟨i1, i2, i3, rest, i4, i5, i6⟩ :=
          ih (count_hits x s1 1).2 (step max_chars st x s1).1 (by omega) hstar'
        rw [runs_scanned_cons, if_neg hd, decode_cons, if_neg hd, hrest]
        generalize runs_scanned max_chars (step max_chars st x s1).1 (count_hits x s1 1).2 = rs
          at i1 i2 i3 i4 i5 i6
        refine ⟨?_, ?_, by simp, rest, ?_, ?_, i6⟩
        · intro r hr
          rcases List.mem_cons.mp hr with h | h
          · rw [h]; exact hc1
          · exact i1 r h
        · rw [List.chain'_cons']
          refine ⟨?_, i2⟩
          intro y hy
          have := i3 y hy
          intro hxy
          apply hhead
          rw [this, ← hxy]
        · rw [expand_cons, List.append_assoc, ← i4]
          have e : (count_hits x s1 1).1 = ((count_hits x s1 1).1 - 1) + 1 := by omega
          simp only []
          rw [e, List.replicate_succ, List.cons_append]
          exact congrArg (List.cons x) hc2
        · intro r hr
          cases rs with
          | nil =>
            simp only [List.getLast?_singleton, Option.mem_def, Option.some.injEq] at hr
            rw [← hr]
            simp only [expand_nil, List.nil_append] at i4
            rw [← i4]
            exact hhead
          | cons r1 rs1 =>
            apply i5 r
            simpa [List.getLast?_cons_cons] using hr

/-! ### The maximal grouping -/

theorem group_runs_head (s : List Char) :
    (group_runs s).head?.map Prod.fst = s.head? := by
  cases s with
  | nil => rfl
  | cons x s =>
    simp only [group_runs]
    cases group_runs s with
    | nil => rfl
    | cons r rs =>
      obtain ⟨y, k⟩ := r
      simp only []
      split_ifs with h
      · simp [h]
      · rfl

/-- A run of `x` followed by characters that do not start with `x` is one run of the
grouping. -/
theorem group_runs_run (x : Char) (r : List Char) (hr : r.head? ≠ some x) :
    ∀ n : Nat, group_runs (x :: (List.replicate n x ++ r)) = (x, n + 1) :: group_runs r := by
  intro n
  induction n with
  | zero =>
    have hh := group_runs_head r
    simp only [List.replicate_zero, List.nil_append, group_runs]
    cases hg : group_runs r with
    | nil => rfl
    | cons q rs =>
      obtain ⟨y, k⟩ := q
      rw [hg] at hh
      have hy : x ≠ y := by
        intro hxy
        apply hr
        rw [← hh, hxy]
        rfl
      simp [hy]
  | succ n ih =>
    have e : x :: (List.replicate (n + 1) x ++ r) = x :: (x :: (List.replicate n x ++ r)) := by
      simp [List.replicate_succ]
    rw [e]
    simp only [group_runs] at ih ⊢
    rw [ih]
    simp

theorem group_runs_counts (s : List Char) : ∀ r ∈ group_runs s, 1 ≤ r.2 := by
  induction s with
  | nil => simp [group_runs]
  | cons x s ih =>
    simp only [group_runs]
    cases hg : group_runs s with
    | nil => simp
    | cons q rs =>
      obtain ⟨y, k⟩ := q
      rw [hg] at ih
      simp only []
      split_ifs
      · intro r hr
        rcases List.mem_cons.mp hr with h | h
        · rw [h]; simp
        · exact ih r (List.mem_cons_of_mem _ h)
      · intro r hr
        rcases List.mem_cons.mp hr with h | h
        · rw [h]
        · exact ih r h

theorem group_runs_chain (s : List Char) :
    List.Chain' (fun a b : Char × Nat => a.1 ≠ b.1) (group_runs s) := by
  induction s with
  | nil => simp [group_runs]
  | cons x s ih =>
    simp only [group_runs]
    cases hg : group_runs s with
    | nil => simp
    | cons q rs =>
      obtain ⟨y, k⟩ := q
      rw [hg] at ih
      simp only []
      rw [List.chain'_cons'] at ih
      split_ifs with h
      · rw [List.chain'_cons']
        exact ih
      · rw [List.chain'_cons', List.chain'_cons']
        exact ⟨by simpa using h, ih⟩

theorem expand_group_runs (s : List Char) : expand (group_runs s) = s := by
  induction s with
  | nil => rfl
  | cons x s ih =>
    simp only [group_runs]
    cases hg : group_runs s with
    | nil =>
      rw [hg] at ih
      simp only [expand_nil] at ih
      simp [← ih]
    | cons q rs =>
      obtain ⟨y, k⟩ := q
      rw [hg] at ih
      simp only [expand_cons] at ih
      simp only []
      split_ifs with h
      · rw [expand_cons]
        simp only []
        rw [List.replicate_succ, List.cons_append, ih, h]
      · rw [expand_cons, expand_cons]
        simp [ih]

theorem expand_append (a b : List (Char × Nat)) : expand (a ++ b) = expand a ++ expand b := by
  simp [expand]

theorem expand_prefix (a b : List (Char × Nat)) (h : a <+: b) : expand a <+: expand b := by
  obtain ⟨t, rfl⟩ := h
  rw [expand_append]
  exact List.prefix_append _ _

theorem prefix_head_ne (e r : List Char) (x : Char) (h : e <+: r) (hr : r.head? ≠ some x) :
    e.head? ≠ some x := by
  cases e with
  | nil => simp
  | cons c e1 =>
    obtain ⟨t, rfl⟩ := h
    simpa using hr

/-- For a character other than a star, the state after a pass depends on the run
only, not on what follows it. -/
theorem step_run_state (max_chars : Int) (st : State) (x : Char) (n : Nat) (e r : List Char)
    (hx : x ≠ '*') (he : e.head? ≠ some x) (hr : r.head? ≠ some x) :
    step max_chars st x (List.replicate n x ++ e) =
      ((step max_chars st x (List.replicate n x ++ r)).1, e) := by
  simp only [step, count_hits_replicate x n e he, count_hits_replicate x n r hr, if_neg hx]
  split_ifs <;> rfl

/-- The runs scanned on an input without a star are the first runs of its maximal
grouping; every one of them is entered with `done` not set, and runs are left
unscanned only when `done` is set after the scanned ones. -/
theorem runs_scanned_coverage (max_chars : Int) : ∀ (n : Nat) (s : List Char) (st : State),
    s.length ≤ n → (∀ c ∈ s, c ≠ '*') →
    runs_scanned max_chars st s <+: group_runs s ∧
    (∀ j, j < (runs_scanned max_chars st s).length →
      ∃ stj, decode max_chars st (expand ((group_runs s).take j)) = some stj ∧
        stj.done = false) ∧
    ((runs_scanned max_chars st s).length < (group_runs s).length →
      ∃ stk, decode max_chars st (expand (runs_scanned max_chars st s)) = some stk ∧
        stk.done = true) := by
  intro n
  induction n with
  | zero =>
    intro s st hn _
    have : s = [] := List.length_eq_zero.mp (Nat.le_zero.mp hn)
    subst this
    simp [group_runs]
  | succ n ih =>
    intro s st hn hstar
    cases s with
    | nil => simp [group_runs]
    | cons x s1 =>
      by_cases hd : st.done = true
      · rw [runs_scanned_cons, if_pos hd]
        refine ⟨List.nil_prefix, by simp, ?_⟩
        intro _
        exact ⟨st, by simp, hd⟩
      · have hx : x ≠ '*' := hstar x (by simp)
        have hdf : st.done = false := by simpa using hd
        obtain ⟨hc1, hc2⟩ := count_hits_split x s1 1
        have hhead := count_hits_head x s1 1
        have hlen := count_hits_length x s1 1
        have hrest := step_rest max_chars st x s1 hx
        have hstar' : ∀ c ∈ (count_hits x s1 1).2, c ≠ '*' := by
          intro c hc
          apply hstar c
          rw [hc2]
          simp [hc]
        simp only [List.length_cons] at hn
        obtain ⟨i1, i2, i3⟩ :=
          ih (count_hits x s1 1).2 (step max_chars st x s1).1 (by omega) hstar'
        rw [runs_scanned_cons, if_neg hd, hrest]
        -- the first run and what follows it
        have hk : (count_hits x s1 1).1 = ((count_hits x s1 1).1 - 1) + 1 := by omega
        have hg : group_runs (x :: s1) =
            (x, (count_hits x s1 1).1) :: group_runs (count_hits x s1 1).2 := by
          have := group_runs_run x (count_hits x s1 1).2 hhead ((count_hits x s1 1).1 - 1)
          rw [← hc2, ← hk] at this
          exact this
        have hpass : ∀ e : List Char, e <+: (count_hits x s1 1).2 →
            decode max_chars st (List.replicate (count_hits x s1 1).1 x ++ e) =
              decode max_chars (step max_chars st x s1).1 e := by
          intro e he
          have hne := prefix_head_ne e _ x he hhead
          have hs := step_run_state max_chars st x ((count_hits x s1 1).1 - 1) e
            (count_hits x s1 1).2 hx hne hhead
          rw [← hc2] at hs
          rw [hk, List.replicate_succ, List.cons_append, decode_cons, if_neg hd, hs]
        generalize runs_scanned max_chars (step max_chars st x s1).1 (count_hits x s1 1).2 = rs
          at i1 i2 i3
        rw [hg]
        refine ⟨?_, ?_, ?_⟩
        · obtain ⟨t, ht⟩ := i1
          exact ⟨t, by rw [List.cons_append, ht]⟩
        · intro j hj
          cases j with
          | zero => exact ⟨st, by simp, hdf⟩
          | succ j =>
            simp only [List.length_cons] at hj
            obtain ⟨stj, e1, e2⟩ := i2 j (by omega)
            refine ⟨stj, ?_, e2⟩
            rw [List.take_succ_cons, expand_cons]
            simp only []
            rw [hpass _ (by
              have := expand_prefix _ _ (List.take_prefix j (group_runs (count_hits x s1 1).2))
              rw [expand_group_runs] at this
              exact this)]
            exact e1
        · intro hlt
          simp only [List.length_cons] at hlt
          obtain ⟨stk, e1, e2⟩ := i3 (by omega)
          refine ⟨stk, ?_, e2⟩
          rw [expand_cons]
          simp only []
          rw [hpass _ (by
            have := expand_prefix _ _ i1
            rw [expand_group_runs] at this
            exact this)]
          exact e1

/-- Counterexample for C19: on `2#3`, which has no star, the runs scanned are those of
`2#` only; the hash sets `done` and the `3` is never scanned. -/
theorem runs_scanned_stop_at_done :
    (∀ c ∈ ['2', '#', '3'], c ≠ '*') ∧
    runs_scanned 10 (fresh blank) ['2', '#', '3'] = [('2', 1), ('#', 1)] ∧
    expand (runs_scanned 10 (fresh blank) ['2', '#', '3']) ≠ ['2', '#', '3'] := by
  decide

/-- C19 (amended): on an input without a star, the runs scanned are the runs of the
maximal run-length grouping of the input up to and including the first run whose pass
sets `done`, and all of them when no pass before the last sets it.  The maximal
grouping has counts of at least 1, adjacent runs with different characters, and expands
to the input; the runs scanned are its first runs; each of them is entered with `done`
not set; and runs are left unscanned only when `done` is set after the scanned ones.
From the initial state with `max_chars = 10`, `2223` gives the runs `('2', 3)`,
`('3', 1)`, the batch `2223#` gives these and `('#', 1)`, and the empty input gives no
run. -/
theorem runs_scanned_grouping (mem : Nat → Char) (max_chars : Int) (st : State)
    (s : List Char) (hs : ∀ c ∈ s, c ≠ '*') :
    (∀ r ∈ group_runs s, 1 ≤ r.2) ∧
    List.Chain' (fun a b : Char × Nat => a.1 ≠ b.1) (group_runs s) ∧
    expand (group_runs s) = s ∧
    runs_scanned max_chars st s <+: group_runs s ∧
    (∀ r ∈ runs_scanned max_chars st s, 1 ≤ r.2) ∧
    List.Chain' (fun a b : Char × Nat => a.1 ≠ b.1) (runs_scanned max_chars st s) ∧
    expand (runs_scanned max_chars st s) <+: s ∧
    (∀ j, j < (runs_scanned max_chars st s).length →
      ∃ stj, decode max_chars st (expand ((group_runs s).take j)) = some stj ∧
        stj.done = false) ∧
    ((runs_scanned max_chars st s).length < (group_runs s).length →
      ∃ stk, decode max_chars st (expand (runs_scanned max_chars st s)) = some stk ∧
        stk.done = true) ∧
    (∀ stk, decode max_chars st (expand (runs_scanned max_chars st s)) = some stk →
      stk.done = false → runs_scanned max_chars st s = group_runs s) ∧
    runs_scanned 10 (fresh mem) ['2', '2', '2', '3'] = [('2', 3), ('3', 1)] ∧
    runs_scanned 10 (fresh mem) ['2', '2', '2', '3', '#'] = [('2', 3), ('3', 1), ('#', 1)] ∧
    runs_scanned max_chars st [] = [] := by
  obtain ⟨h1, h2, h3⟩ := runs_scanned_coverage max_chars s.length s st (Nat.le_refl _) hs
  obtain ⟨p1, p2, _, rest, p4, _, _⟩ :=
    runs_scanned_props max_chars s.length s st (Nat.le_refl _) hs
  refine ⟨group_runs_counts s, group_runs_chain s, expand_group_runs s, h1, p1, p2,
    ⟨rest, p4.symm⟩, h2, h3, ?_, rfl, rfl, rfl⟩
  intro stk e1 e2
  have hle : (group_runs s).length ≤ (runs_scanned max_chars st s).length := by
    by_contra hlt
    obtain ⟨stk1, e3, e4⟩ := h3 (by omega)
    rw [e1] at e3
    have : stk = stk1 := by simpa using e3
    rw [this, e4] at e2
    exact absurd e2 (by decide)
  exact h1.eq_of_length (Nat.le_antisymm h1.length_le hle)

/-- Witness for C19: the batch `2223#` in the initial state. -/
theorem runs_scanned_grouping_witness :
    (∀ r ∈ group_runs ['2', '2', '2', '3', '#'], 1 ≤ r.2) ∧
    List.Chain' (fun a b : Char × Nat => a.1 ≠ b.1) (group_runs ['2', '2', '2', '3', '#']) ∧
    expand (group_runs ['2', '2', '2', '3', '#']) = ['2', '2', '2', '3', '#'] ∧
    runs_scanned 10 (fresh blank) ['2', '2', '2', '3', '#'] <+:
      group_runs ['2', '2', '2', '3', '#'] ∧
    (∀ r ∈ runs_scanned 10 (fresh blank) ['2', '2', '2', '3', '#'], 1 ≤ r.2) ∧
    List.Chain' (fun a b : Char × Nat => a.1 ≠ b.1)
      (runs_scanned 10 (fresh blank) ['2', '2', '2', '3', '#']) ∧
    expand (runs_scanned 10 (fresh blank) ['2', '2', '2', '3', '#']) <+:
      ['2', '2', '2', '3', '#'] ∧
    (∀ j, j < (runs_scanned 10 (fresh blank) ['2', '2', '2', '3', '#']).length →
      ∃ stj, decode 10 (fresh blank) (expand ((group_runs ['2', '2', '2', '3', '#']).take j)) =
          some stj ∧
        stj.done = false) ∧
    ((runs_scanned 10 (fresh blank) ['2', '2', '2', '3', '#']).length <
        (group_runs ['2', '2', '2', '3', '#']).length →
      ∃ stk, decode 10 (fresh blank)
          (expand (runs_scanned 10 (fresh blank) ['2', '2', '2', '3', '#'])) = some stk ∧
        stk.done = true) ∧
    (∀ stk, decode 10 (fresh blank)
        (expand (runs_scanned 10 (fresh blank) ['2', '2', '2', '3', '#'])) = some stk →
      stk.done = false →
      runs_scanned 10 (fresh blank) ['2', '2', '2', '3', '#'] =
        group_runs ['2', '2', '2', '3', '#']) ∧
    runs_scanned 10 (fresh blank) ['2', '2', '2', '3'] = [('2', 3), ('3', 1)] ∧
    runs_scanned 10 (fresh blank) ['2', '2', '2', '3', '#'] =
      [('2', 3), ('3', 1), ('#', 1)] ∧
    runs_scanned 10 (fresh blank) [] = [] :=
  runs_scanned_grouping blank 10 (fresh blank) ['2', '2', '2', '3', '#'] (by decide)

/-! ## What the backspace over a word leaves -/

theorem backspace_word_prefix (st : State) :
    (backspace_word st).entered_text <+: st.entered_text := by
  simp only [backspace_word]
  split_ifs
  · exact List.take_prefix _ _
  · exact List.take_prefix _ _
  · exact List.prefix_refl _

/-- C20: the text that `**9` leaves is a prefix of the text before it, and it is empty
or ends with a space. -/
theorem word_backspace_leaves_prefix (max_chars : Int) (st : State) (rest : List Char) :
    (step max_chars st '*' ('*' :: '9' :: rest)).2 = rest ∧
    (step max_chars st '*' ('*' :: '9' :: rest)).1.entered_text <+: st.entered_text ∧
    ((step max_chars st '*' ('*' :: '9' :: rest)).1.entered_text = [] ∨
      (step max_chars st '*' ('*' :: '9' :: rest)).1.entered_text.getLast? = some ' ') := by
  have hs : step max_chars st '*' ('*' :: '9' :: rest) = (backspace_word st, rest) := by
    rw [step_star_two max_chars st ('9' :: rest) (by simp)]
    simp [selector]
  rw [hs]
  refine ⟨rfl, backspace_word_prefix st, ?_⟩
  show (backspace_word st).entered_text = [] ∨ (backspace_word st).entered_text.getLast? = some ' '
  rw [backspace_word_entered_text]
  split_ifs with h1 h2
  · right; rfl
  · left; rfl
  · right
    have hl := rdropWhile_getLast_space _ h1
    rw [List.getLast?_eq_getLast _ h1]
    exact congrArg some hl

end DtmfToText
